import Mathlib

/-!
Verification development for the bfc repository: a Brainfuck compiler
(src/bfc.py) and interpreter (src/bfi.py).  The Python sources are embedded
shallowly below: index-driven while loops become fuel-free recursions on the
remaining length, the `tags` dict becomes an association list with
first-match lookup, machine bytes become naturals reduced mod 256, and the
emitted assembly text becomes a structured instruction list whose
constructors correspond line-for-line to the format strings in bfc.py.
-/

namespace Bfc

/-- The eight recognized symbols, `VALID_TOKENS = "<>[].,+-"` in both
bfi.py and bfc.py. -/
def VALID_TOKENS : List Char := ['<', '>', '[', ']', '.', ',', '+', '-']

/-- Interpreter normalizer, bfi.py `clean_source`: keep only valid tokens. -/
def clean_source (s : List Char) : List Char :=
  s.filter (fun c => c ∈ VALID_TOKENS)

/-- Compiler normalizer, bfc.py `BFCompiler.normalize`: keep only valid
tokens (same comprehension as the interpreter's). -/
def normalize (s : List Char) : List Char :=
  s.filter (fun c => c ∈ VALID_TOKENS)

/-- Bracket contribution of one character: loop-start opens, loop-end
closes, all other characters are neutral. -/
def delta (c : Char) : Int :=
  if c = '[' then 1 else if c = ']' then -1 else 0

/-- Nesting balance of the first `k` characters: number of loop-starts
minus number of loop-ends. -/
def bal (s : List Char) : Nat → Int
  | 0 => 0
  | k + 1 => bal s k + delta (s.getD k ' ')

/-- A program is well formed (the spec's Bracket Map invariant) when no
prefix closes more loops than it opens and the whole program closes every
loop it opens. -/
def Balanced (s : List Char) : Prop :=
  (∀ k, k ≤ s.length → 0 ≤ bal s k) ∧ bal s s.length = 0

instance : DecidablePred Balanced := fun s => by
  unfold Balanced
  infer_instance

/-- Scanning loop of bfi.py `tag_lookahead`: from `cursor` with current
nesting level `nest`, find the position where the level returns to zero.
The loop is driven by a fuel argument so that the recursion is structural;
callers pass `s.length - index`, which covers every iteration the Python
while loop can make, so the fuel never runs out before the loop's own exit
condition. -/
def tla_aux (s : List Char) : Nat → Nat → Int → Option Nat
  | 0, _, _ => none
  | fuel + 1, cursor, nest =>
    if h : cursor < s.length then
      if s[cursor] = '[' then tla_aux s fuel (cursor + 1) (nest + 1)
      else if s[cursor] = ']' then
        if nest - 1 = 0 then some cursor
        else tla_aux s fuel (cursor + 1) (nest - 1)
      else tla_aux s fuel (cursor + 1) nest
    else none

/-- bfi.py `tag_lookahead`: given the index of an opening bracket, find its
matched closing bracket; `none` models the raised InterpreterError. -/
def tag_lookahead (s : List Char) (index : Nat) : Option Nat :=
  tla_aux s (s.length - index) (index + 1) 1

/-- Lookup in the Python `tags` dict, modeled as first-match search in an
association list where the most recent binding is at the head. -/
def dlookup (m : List (Nat × Nat)) (k : Nat) : Option Nat :=
  match m with
  | [] => none
  | (a, b) :: rest => if k = a then some b else dlookup rest k

/-- Main loop of bfi.py `construct_tags`: walk every index; on a
loop-start record the pair both ways, on a loop-end check that it was
already matched.  The error value carries the index in the raised
`"mismatched bracket at index %d"` message. -/
def ct_aux (s : List Char) : Nat → Nat → List (Nat × Nat) →
    Except Nat (List (Nat × Nat))
  | 0, _, tags => .ok tags
  | fuel + 1, index, tags =>
    if h : index < s.length then
      if s[index] = '[' then
        match tag_lookahead s index with
        | some j => ct_aux s fuel (index + 1) ((j, index) :: (index, j) :: tags)
        | none => .error index
      else if s[index] = ']' then
        if (dlookup tags index).isSome then ct_aux s fuel (index + 1) tags
        else .error index
      else ct_aux s fuel (index + 1) tags
    else .ok tags

/-- bfi.py `construct_tags`; the fuel `s.length` covers the whole
`for index in range(len(source))` loop. -/
def construct_tags (s : List Char) : Except Nat (List (Nat × Nat)) :=
  ct_aux s s.length 0 []

/-- Loop of bfc.py `BFCompiler.__lookahead`: advance while the nesting
level stays nonnegative; afterwards a negative level means the closing
bracket was found one step back, otherwise ValueError is raised (`none`). -/
def cla_aux (s : List Char) : Nat → Nat → Int → Option Nat
  | 0, lc, nest => if nest < 0 then some (lc - 1) else none
  | fuel + 1, lc, nest =>
    if 0 ≤ nest ∧ lc < s.length then
      cla_aux s fuel (lc + 1) (nest + delta (s.getD lc ' '))
    else if nest < 0 then some (lc - 1) else none

/-- bfc.py `BFCompiler.__lookahead` (called with the cursor on a
loop-start token); the fuel `s.length - cursor` covers every iteration of
the Python while loop. -/
def clookahead (s : List Char) (cursor : Nat) : Option Nat :=
  cla_aux s (s.length - cursor) (cursor + 1) 0

/-- Loop of bfc.py `BFCompiler.__lookbehind`: scan backwards while the
nesting level stays nonnegative and the local cursor stays strictly
positive (the Python guard is `local_cursor > 0`, so index 0 is never
examined).  A negative level yields the match one step forward, otherwise
ValueError (`none`). -/
def clb_aux (s : List Char) : Nat → Int → Option Nat
  | 0, nest => if nest < 0 then some 1 else none
  | lc + 1, nest =>
    if 0 ≤ nest then
      clb_aux s lc (nest - delta (s.getD (lc + 1) ' '))
    else if nest < 0 then some (lc + 1 + 1) else none

/-- bfc.py `BFCompiler.__lookbehind` (called with the cursor on a
loop-end token).  For cursor 0 the Python local cursor is -1 and the loop
is skipped; the natural subtraction 0 - 1 = 0 gives the same skip. -/
def clookbehind (s : List Char) (cursor : Nat) : Option Nat :=
  clb_aux s (cursor - 1) 0

/-- One line of the emitted assembly text.  Constructors correspond to the
format strings in bfc.py: `header n b` is PROGRAM_HEADER with region size
`n` and cleanup buffer size `b`; `shiftAdd q` is `addl $q, [pointer]`;
`shiftSub q` is `subl $q, [pointer]`; `cmpPointer v` is
`cmpl $v, [pointer]`; `jeAbort` is `je abort`; `cellAdd q` is the
lea/add/`addb $q` group; `cellSub q` the `subb $q` group; `label i` is
`tag_i:`; `cmpCellZero` is the lea/add/`cmpb $0` test; `jeTag j` is
`je tag_j`; `jneTag i` is `jne tag_i`; `callDot`/`callComma`/`callCleanup`
are the corresponding `call` lines. -/
inductive Asm
  | header (cells bufSize : Nat)
  | shiftAdd (q : Int)
  | shiftSub (q : Int)
  | cmpPointer (v : Int)
  | jeAbort
  | cellAdd (q : Int)
  | cellSub (q : Int)
  | label (i : Nat)
  | cmpCellZero
  | jeTag (j : Nat)
  | jneTag (i : Nat)
  | callDot
  | callComma
  | callCleanup
deriving DecidableEq, Repr

/-- Consumption loop shared by bfc.py `__produce_shift_instruction`:
consume contiguous `<`/`>` tokens, counting them and accumulating the net
signed displacement.  Returns final cursor, consumed count and quantity. -/
def shiftLoop (s : List Char) : Nat → Nat → Nat → Int → Nat × Nat × Int
  | 0, cursor, consumed, quantity => (cursor, consumed, quantity)
  | fuel + 1, cursor, consumed, quantity =>
    if h : cursor < s.length then
      if s[cursor] = '<' ∨ s[cursor] = '>' then
        shiftLoop s fuel (cursor + 1) (consumed + 1)
          (quantity + if s[cursor] = '>' then 1 else -1)
      else (cursor, consumed, quantity)
    else (cursor, consumed, quantity)

/-- Consumption loop of bfc.py `__produce_mutate_instruction`: contiguous
`+`/`-` tokens. -/
def mutLoop (s : List Char) : Nat → Nat → Nat → Int → Nat × Nat × Int
  | 0, cursor, consumed, quantity => (cursor, consumed, quantity)
  | fuel + 1, cursor, consumed, quantity =>
    if h : cursor < s.length then
      if s[cursor] = '+' ∨ s[cursor] = '-' then
        mutLoop s fuel (cursor + 1) (consumed + 1)
          (quantity + if s[cursor] = '+' then 1 else -1)
      else (cursor, consumed, quantity)
    else (cursor, consumed, quantity)

/-- Instruction group emitted for a folded pointer move of net quantity
`q`: SHIFT_RIGHT_INSTRUCTION for positive, SHIFT_LEFT_INSTRUCTION for
negative, the empty string when the moves cancel out. -/
def shiftGroup (q : Int) : List Asm :=
  if 0 < q then [.shiftAdd q, .cmpPointer (-1), .jeAbort]
  else if q < 0 then [.shiftSub (-q), .cmpPointer (-1), .jeAbort]
  else []

/-- Instruction group emitted for a folded cell mutation of net quantity
`q`: ADD_INSTRUCTION, SUB_INSTRUCTION, or the empty string. -/
def mutGroup (q : Int) : List Asm :=
  if 0 < q then [.cellAdd q]
  else if q < 0 then [.cellSub (-q)]
  else []

/-- bfc.py `BFCompiler.__produce_shift_instruction`: `none` models the
Python `None` return (no move token consumed). -/
def produce_shift (s : List Char) (cursor : Nat) : Option (List Asm × Nat) :=
  if 0 < (shiftLoop s (s.length - cursor) cursor 0 0).2.1 then
    some (shiftGroup (shiftLoop s (s.length - cursor) cursor 0 0).2.2,
      (shiftLoop s (s.length - cursor) cursor 0 0).1)
  else none

/-- bfc.py `BFCompiler.__produce_mutate_instruction`. -/
def produce_mutate (s : List Char) (cursor : Nat) : Option (List Asm × Nat) :=
  if 0 < (mutLoop s (s.length - cursor) cursor 0 0).2.1 then
    some (mutGroup (mutLoop s (s.length - cursor) cursor 0 0).2.2,
      (mutLoop s (s.length - cursor) cursor 0 0).1)
  else none

/-- bfc.py `BFCompiler.__produce_instruction` for a cursor strictly inside
the source (the StopIteration case is handled by the caller).  Errors model
the ValueError raised by a failing bracket scan. -/
def produce_instruction (s : List Char) (cursor : Nat) :
    Except Unit (List Asm × Nat) :=
  match produce_shift s cursor with
  | some (g, c') => .ok (g, c')
  | none =>
    match produce_mutate s cursor with
    | some (g, c') => .ok (g, c')
    | none =>
      if s.getD cursor ' ' = '[' then
        match clookahead s cursor with
        | some j => .ok ([.label cursor, .cmpCellZero, .jeTag j], cursor + 1)
        | none => .error ()
      else if s.getD cursor ' ' = ']' then
        match clookbehind s cursor with
        | some i => .ok ([.label cursor, .cmpCellZero, .jneTag i], cursor + 1)
        | none => .error ()
      else if s.getD cursor ' ' = '.' then .ok ([.callDot], cursor + 1)
      else if s.getD cursor ' ' = ',' then .ok ([.callComma], cursor + 1)
      else .ok ([], cursor + 1)

/-- The consumed run of `produce_shift` covers exactly `consumed` tokens. -/
theorem shiftLoop_progress (s : List Char) :
    ∀ fuel cursor consumed quantity,
      (shiftLoop s fuel cursor consumed quantity).2.1 =
        consumed + ((shiftLoop s fuel cursor consumed quantity).1 - cursor) ∧
      cursor ≤ (shiftLoop s fuel cursor consumed quantity).1 := by
  intro fuel
  induction fuel with
  | zero =>
    intro cursor consumed quantity
    simp [shiftLoop]
  | succ fuel ih =>
    intro cursor consumed quantity
    simp only [shiftLoop]
    by_cases h : cursor < s.length
    · simp only [h, dif_pos]
      by_cases hc : s[cursor] = '<' ∨ s[cursor] = '>'
      · simp only [hc, if_pos]
        have hrec := ih (cursor + 1) (consumed + 1)
          (quantity + if s[cursor] = '>' then 1 else -1)
        refine ⟨?_, by omega⟩
        rw [hrec.1]
        have := hrec.2
        omega
      · simp [hc]
    · simp [h]

/-- Same accounting for the mutate loop. -/
theorem mutLoop_progress (s : List Char) :
    ∀ fuel cursor consumed quantity,
      (mutLoop s fuel cursor consumed quantity).2.1 =
        consumed + ((mutLoop s fuel cursor consumed quantity).1 - cursor) ∧
      cursor ≤ (mutLoop s fuel cursor consumed quantity).1 := by
  intro fuel
  induction fuel with
  | zero =>
    intro cursor consumed quantity
    simp [mutLoop]
  | succ fuel ih =>
    intro cursor consumed quantity
    simp only [mutLoop]
    by_cases h : cursor < s.length
    · simp only [h, dif_pos]
      by_cases hc : s[cursor] = '+' ∨ s[cursor] = '-'
      · simp only [hc, if_pos]
        have hrec := ih (cursor + 1) (consumed + 1)
          (quantity + if s[cursor] = '+' then 1 else -1)
        refine ⟨?_, by omega⟩
        rw [hrec.1]
        have := hrec.2
        omega
      · simp [hc]
    · simp [h]

/-- A successful `produce_instruction` strictly advances the cursor. -/
theorem produce_instruction_progress (s : List Char) (cursor : Nat)
    (g : List Asm) (c' : Nat)
    (h : produce_instruction s cursor = .ok (g, c')) : cursor < c' := by
  unfold produce_instruction at h
  split at h
  case h_1 g0 c0 heq =>
    unfold produce_shift at heq
    split at heq
    case isTrue hcons =>
      have hp := shiftLoop_progress s (s.length - cursor) cursor 0 0
      cases h
      simp only [Option.some.injEq, Prod.mk.injEq] at heq
      omega
    case isFalse => exact absurd heq (by simp)
  case h_2 =>
    split at h
    case h_1 g0 c0 heq =>
      unfold produce_mutate at heq
      split at heq
      case isTrue hcons =>
        have hp := mutLoop_progress s (s.length - cursor) cursor 0 0
        cases h
        simp only [Option.some.injEq, Prod.mk.injEq] at heq
        omega
      case isFalse => exact absurd heq (by simp)
    case h_2 =>
      split at h
      · split at h
        · cases h; omega
        · cases h
      · split at h
        · split at h
          · cases h; omega
          · cases h
        · split at h
          · cases h; omega
          · split at h
            · cases h; omega
            · cases h; omega

/-- Main loop of bfc.py `BFCompiler.compile`: concatenate instruction
groups until StopIteration, propagating scan failures. -/
def compile_loop (s : List Char) : Nat → Nat → Except Unit (List Asm)
  | 0, _ => .ok []
  | fuel + 1, cursor =>
    if cursor < s.length then
      match produce_instruction s cursor with
      | .error e => .error e
      | .ok (g, c') =>
        match compile_loop s fuel c' with
        | .error e => .error e
        | .ok rest => .ok (g ++ rest)
    else .ok []

/-- bfc.py `BFCompiler.compile` (together with `__init__` and
`__produce_header`): normalize, emit the header, the per-token groups and
the final call to cleanup.  Each `__produce_instruction` call advances the
cursor by at least one position, so fuel equal to the source length covers
the whole loop up to StopIteration. -/
def compile (raw : List Char) (size : Nat) : Except Unit (List Asm) :=
  match compile_loop (normalize raw) (normalize raw).length 0 with
  | .error e => .error e
  | .ok body => .ok (.header size (min size 1024) :: body ++ [.callCleanup])

/-- Interpreter failures, bfi.py `InterpreterError` plus the two Python
runtime errors the interpreter can hit.  `structural i` is
`"mismatched bracket at index i"`; `ptrOutOfRange v` is
`"pointer out of range (v)"`; `eofInput` and `multibyteInput` come from
`io_getchar`; `typeMismatch` is the TypeError raised by assigning the
one-character string popped from `_iobuf` into the bytearray; `missingTag`
is the KeyError of `loop_tags[cursor]` on an unresolved bracket. -/
inductive IErr
  | structural (i : Nat)
  | ptrOutOfRange (v : Int)
  | eofInput
  | multibyteInput
  | typeMismatch
  | missingTag
deriving DecidableEq, Repr

/-- Result of bfi.py `io_getchar`: a character popped from the global
`_iobuf` (a Python str), or the ord of a single byte read from stdin, or
one of the two raised errors. -/
inductive GetChar
  | bufChar (c : Char)
  | byte (b : Nat)
  | errEof
  | errMultibyte
deriving DecidableEq, Repr

/-- Model of one `sys.stdin.read(1)` unit during execution: the UTF-8
bytes of the character read.  An empty stdin list models end of file. -/
def io_getchar (iobuf : List Char) (stdin : List (List Nat)) :
    GetChar × List Char × List (List Nat) :=
  match iobuf with
  | c :: rest => (.bufChar c, rest, stdin)
  | [] =>
    match stdin with
    | [] => (.errEof, [], [])
    | u :: rest =>
      if 1 < u.length then (.errMultibyte, [], rest)
      else if u.length = 0 then (.errEof, [], rest)
      else (.byte (u.getD 0 0), [], rest)

/-- Interpreter machine state, bfi.py `interpret` locals plus the global
input buffer and the external stdin and stdout channels. -/
structure IState where
  tape : List Nat
  pointer : Int
  cursor : Nat
  iobuf : List Char
  stdin : List (List Nat)
  output : List Nat
deriving DecidableEq, Repr

/-- One iteration of the bfi.py `interpret` while loop, for a cursor
strictly inside the source.  Errors carry the machine state at the moment
the exception is raised (the pointer increment of a failing move has
already happened; the final `cursor += 1` has not).  Tape reads and writes
use `getD`/`set`; every reachable state keeps the pointer inside the tape
(see the invariant theorem), matching the bytearray accesses. -/
def istep (s : List Char) (tags : List (Nat × Nat)) (cells : Nat)
    (st : IState) : Except (IErr × IState) IState :=
  if s.getD st.cursor ' ' = '>' then
    if st.pointer + 1 = (cells : Int) then
      .error (.ptrOutOfRange (cells : Int), { st with pointer := st.pointer + 1 })
    else .ok { st with pointer := st.pointer + 1, cursor := st.cursor + 1 }
  else if s.getD st.cursor ' ' = '<' then
    if st.pointer - 1 < 0 then
      .error (.ptrOutOfRange (-1), { st with pointer := st.pointer - 1 })
    else .ok { st with pointer := st.pointer - 1, cursor := st.cursor + 1 }
  else if s.getD st.cursor ' ' = '+' then
    .ok { st with
      tape := st.tape.set st.pointer.toNat
        ((st.tape.getD st.pointer.toNat 0 + 1) % 256),
      cursor := st.cursor + 1 }
  else if s.getD st.cursor ' ' = '-' then
    .ok { st with
      tape := st.tape.set st.pointer.toNat
        ((st.tape.getD st.pointer.toNat 0 + 255) % 256),
      cursor := st.cursor + 1 }
  else if s.getD st.cursor ' ' = '[' then
    if st.tape.getD st.pointer.toNat 0 = 0 then
      match dlookup tags st.cursor with
      | some j => .ok { st with cursor := j + 1 }
      | none => .error (.missingTag, st)
    else .ok { st with cursor := st.cursor + 1 }
  else if s.getD st.cursor ' ' = ']' then
    if st.tape.getD st.pointer.toNat 0 = 0 then
      .ok { st with cursor := st.cursor + 1 }
    else
      match dlookup tags st.cursor with
      | some j => .ok { st with cursor := j + 1 }
      | none => .error (.missingTag, st)
  else if s.getD st.cursor ' ' = '.' then
    .ok { st with
      output := st.output ++ [st.tape.getD st.pointer.toNat 0],
      cursor := st.cursor + 1 }
  else if s.getD st.cursor ' ' = ',' then
    match io_getchar st.iobuf st.stdin with
    | (.bufChar _, buf', in') =>
      .error (.typeMismatch, { st with iobuf := buf', stdin := in' })
    | (.byte b, buf', in') =>
      .ok { st with
        tape := st.tape.set st.pointer.toNat b,
        iobuf := buf', stdin := in', cursor := st.cursor + 1 }
    | (.errEof, buf', in') =>
      .error (.eofInput, { st with iobuf := buf', stdin := in' })
    | (.errMultibyte, buf', in') =>
      .error (.multibyteInput, { st with iobuf := buf', stdin := in' })
  else .ok { st with cursor := st.cursor + 1 }

/-- Outcome of running the interpreter loop: normal termination, a raised
error, or fuel exhaustion (the Python loop may run forever). -/
inductive RunOut
  | done (st : IState)
  | failed (e : IErr) (st : IState)
  | spin (st : IState)
deriving DecidableEq, Repr

/-- The bfi.py `interpret` while loop, with fuel to keep the recursion
total. -/
def irun (s : List Char) (tags : List (Nat × Nat)) (cells : Nat) :
    Nat → IState → RunOut
  | 0, st => .spin st
  | fuel + 1, st =>
    if st.cursor < s.length then
      match istep s tags cells st with
      | .error (e, st') => .failed e st'
      | .ok st' => irun s tags cells fuel st'
    else .done st

/-- Fresh machine: `bytearray(cells)` and pointer 0 at cursor 0 with
nothing written to stdout. -/
def initState (cells : Nat) (iobuf : List Char) (stdin : List (List Nat)) :
    IState :=
  { tape := List.replicate cells 0, pointer := 0, cursor := 0,
    iobuf := iobuf, stdin := stdin, output := [] }

/-- bfi.py `interpret`: normalize, resolve brackets (failing before the
machine is touched), then run the loop. -/
def interpret (raw : List Char) (cells fuel : Nat) (iobuf : List Char)
    (stdin : List (List Nat)) : RunOut :=
  match construct_tags (clean_source raw) with
  | .error i => .failed (.structural i) (initState cells iobuf stdin)
  | .ok tags => irun (clean_source raw) tags cells fuel (initState cells iobuf stdin)

/-- Chunked pre-read loop of bfi.py `read_until_char`: while the sentinel
is not in `result`, append the previously read chunk and read another.
The fuel covers the bounded number of reads a terminated stdin allows; the
Python loop spins forever when the sentinel never arrives. -/
def ruc_loop (term : Char) (fuel : Nat) (result chunk stdin : List Char) :
    Option (List Char × List Char) :=
  match fuel with
  | 0 => none
  | fuel + 1 =>
    if term ∈ result then some (result ++ chunk, stdin)
    else ruc_loop term fuel (result ++ chunk) (stdin.take 1024) (stdin.drop 1024)

/-- bfi.py `read_until_char`: returns the program source (text before the
first sentinel) and the contents handed to `io_rebuffer` (the text from
the first sentinel onward, sentinel included). -/
def read_until_char (term : Char) (stdin : List Char) (fuel : Nat) :
    Option (List Char × List Char) :=
  match ruc_loop term fuel [] (stdin.take 1024) (stdin.drop 1024) with
  | none => none
  | some (result, _) =>
    match result.indexOf? term with
    | none => none
    | some idx => some (result.take idx, result.drop idx)

/-- Reference token-by-token executor for a run of move or mutation
tokens: each move token shifts the pointer by one, each mutation token
adjusts the byte under the (unmoved) pointer by one modulo 256, exactly
the per-token effects of the interpreter loop. -/
def execRun : List Char → Int × List Nat → Int × List Nat
  | [], st => st
  | c :: rest, (p, t) =>
    if c = '>' then execRun rest (p + 1, t)
    else if c = '<' then execRun rest (p - 1, t)
    else if c = '+' then
      execRun rest (p, t.set p.toNat ((t.getD p.toNat 0 + 1) % 256))
    else if c = '-' then
      execRun rest (p, t.set p.toNat ((t.getD p.toNat 0 + 255) % 256))
    else execRun rest (p, t)

/-- Semantics of an emitted pointer-move instruction group acting on the
pointer cell: `addl`/`subl` adjust it, `cmpl $-1` followed by `je abort`
jumps to the abort routine exactly on equality. -/
def runPtrGroup : List Asm → Int → Except Unit Int
  | [], p => .ok p
  | .shiftAdd q :: rest, p => runPtrGroup rest (p + q)
  | .shiftSub q :: rest, p => runPtrGroup rest (p - q)
  | .cmpPointer v :: .jeAbort :: rest, p =>
    if p = v then .error () else runPtrGroup rest p
  | _, _ => .error ()

/-- The slice of positions `a ≤ k < b` of a source. -/
def slice (s : List Char) (a b : Nat) : List Char :=
  (s.drop a).take (b - a)

/-- Pointer safety invariant of the interpreter: the pointer is inside
the tape and the tape has the configured number of cells. -/
def PtrInv (cells : Nat) (st : IState) : Prop :=
  0 ≤ st.pointer ∧ st.pointer < (cells : Int) ∧ st.tape.length = cells

instance (cells : Nat) (st : IState) : Decidable (PtrInv cells st) := by
  unfold PtrInv
  infer_instance

theorem delta_eq_one_iff (c : Char) : delta c = 1 ↔ c = '[' := by
  unfold delta
  split_ifs with h1 h2
  · simp [h1]
  · exact iff_of_false (by norm_num) h1
  · exact iff_of_false (by norm_num) h1

theorem delta_eq_negone_iff (c : Char) : delta c = -1 ↔ c = ']' := by
  unfold delta
  split_ifs with h1 h2
  · rw [h1]
    exact iff_of_false (by norm_num) (by decide)
  · simp [h2]
  · exact iff_of_false (by norm_num) h2

theorem delta_bounds (c : Char) : -1 ≤ delta c ∧ delta c ≤ 1 := by
  unfold delta
  split_ifs <;> omega

theorem delta_space : delta ' ' = 0 := by decide

theorem bal_succ (s : List Char) (k : Nat) :
    bal s (k + 1) = bal s k + delta (s.getD k ' ') := rfl

/-- The balance is constant past the end of the source. -/
theorem bal_stable (s : List Char) :
    ∀ k, s.length ≤ k → bal s k = bal s s.length := by
  intro k
  induction k with
  | zero =>
    intro h
    have : s.length = 0 := by omega
    rw [this]
  | succ k ih =>
    intro h
    rcases Nat.lt_or_ge s.length (k + 1) with h1 | h1
    · have hk : s.length ≤ k := by omega
      rw [bal_succ, List.getD_eq_default _ _ hk, delta_space, add_zero, ih hk]
    · have : s.length = k + 1 := by omega
      rw [this]

/-- A position holding a non-space character is inside the source. -/
theorem lt_length_of_getD (s : List Char) (i : Nat) (c : Char)
    (hc : s.getD i ' ' = c) (hne : c ≠ ' ') : i < s.length := by
  by_contra h
  rw [List.getD_eq_default _ _ (by omega)] at hc
  exact hne hc.symm

/-- Discrete intermediate value property, descending direction: a
quantity moving by steps of at most one from above `t` to below `t`
passes through `t`. -/
theorem ivt_down (s : List Char) :
    ∀ n a b (t : Int), b - a ≤ n → a ≤ b → t ≤ bal s a → bal s b ≤ t →
      ∃ m, a ≤ m ∧ m ≤ b ∧ bal s m = t := by
  intro n
  induction n with
  | zero =>
    intro a b t hn hab h1 h2
    have hba : b = a := by omega
    refine ⟨a, le_rfl, hab, ?_⟩
    rw [hba] at h2
    omega
  | succ n ih =>
    intro a b t hn hab h1 h2
    by_cases he : bal s a = t
    · exact ⟨a, le_rfl, hab, he⟩
    · have hlt : t < bal s a := lt_of_le_of_ne h1 (Ne.symm he)
      have hne : a ≠ b := by
        intro h
        subst h
        omega
      have hab1 : a + 1 ≤ b := by omega
      have hstep := delta_bounds (s.getD a ' ')
      have hs : t ≤ bal s (a + 1) := by
        rw [bal_succ]
        omega
      obtain ⟨m, hm1, hm2, hm3⟩ := ih (a + 1) b t (by omega) hab1 hs h2
      exact ⟨m, by omega, hm2, hm3⟩

/-- Discrete intermediate value property, ascending direction. -/
theorem ivt_up (s : List Char) :
    ∀ n a b (t : Int), b - a ≤ n → a ≤ b → bal s a ≤ t → t ≤ bal s b →
      ∃ m, a ≤ m ∧ m ≤ b ∧ bal s m = t := by
  intro n
  induction n with
  | zero =>
    intro a b t hn hab h1 h2
    have hba : b = a := by omega
    refine ⟨a, le_rfl, hab, ?_⟩
    rw [hba] at h2
    omega
  | succ n ih =>
    intro a b t hn hab h1 h2
    by_cases he : bal s a = t
    · exact ⟨a, le_rfl, hab, he⟩
    · have hlt : bal s a < t := lt_of_le_of_ne h1 he
      have hne : a ≠ b := by
        intro h
        subst h
        omega
      have hab1 : a + 1 ≤ b := by omega
      have hstep := delta_bounds (s.getD a ' ')
      have hs : bal s (a + 1) ≤ t := by
        rw [bal_succ]
        omega
      obtain ⟨m, hm1, hm2, hm3⟩ := ih (a + 1) b t (by omega) hab1 hs h2
      exact ⟨m, by omega, hm2, hm3⟩

/-- Characterization of the `tag_lookahead` scanning loop: entered at
`cursor` with pending nesting `nest ≥ 1`, it returns exactly the first
position `j` where the running balance settles `nest` below the balance at
entry. -/
theorem tla_aux_some_iff (s : List Char) :
    ∀ fuel cursor, s.length ≤ cursor + fuel → ∀ (nest : Int), 1 ≤ nest → ∀ j,
      (tla_aux s fuel cursor nest = some j ↔
        (cursor ≤ j ∧ j < s.length ∧ bal s (j + 1) = bal s cursor - nest ∧
         ∀ k, cursor ≤ k → k < j → bal s (k + 1) ≠ bal s cursor - nest)) := by
  intro fuel
  induction fuel with
  | zero =>
    intro cursor hn nest hnest j
    constructor
    · intro h
      exact Option.noConfusion h
    · rintro ⟨h1, h2, _, _⟩
      omega
  | succ fuel ih =>
    intro cursor hn nest hnest j
    by_cases hcur : cursor < s.length
    · have hgetd : s.getD cursor ' ' = s[cursor] := List.getD_eq_getElem s ' ' hcur
      show (if h : cursor < s.length then
          if s[cursor] = '[' then tla_aux s fuel (cursor + 1) (nest + 1)
          else if s[cursor] = ']' then
            if nest - 1 = 0 then some cursor
            else tla_aux s fuel (cursor + 1) (nest - 1)
          else tla_aux s fuel (cursor + 1) nest
        else none) = some j ↔ _
      rw [dif_pos hcur]
      by_cases hbr : s[cursor] = '['
      · rw [if_pos hbr]
        have hbal1 : bal s (cursor + 1) = bal s cursor + 1 := by
          rw [bal_succ, hgetd, hbr]
          norm_num [delta]
        rw [ih (cursor + 1) (by omega) (nest + 1) (by omega) j]
        constructor
        · rintro ⟨hj1, hj2, hj3, hj4⟩
          refine ⟨by omega, hj2, by omega, ?_⟩
          intro k hk1 hk2
          rcases Nat.eq_or_lt_of_le hk1 with hk | hk
          · subst hk
            omega
          · have := hj4 k (by omega) hk2
            omega
        · rintro ⟨hj1, hj2, hj3, hj4⟩
          have hjne : j ≠ cursor := by
            intro h
            subst h
            omega
          refine ⟨by omega, hj2, by omega, ?_⟩
          intro k hk1 hk2
          have := hj4 k (by omega) hk2
          omega
      · rw [if_neg hbr]
        by_cases hcl : s[cursor] = ']'
        · rw [if_pos hcl]
          have hbal1 : bal s (cursor + 1) = bal s cursor - 1 := by
            rw [bal_succ, hgetd, hcl]
            have hd : delta ']' = -1 := by decide
            rw [hd]
            ring
          by_cases hone : nest - 1 = 0
          · rw [if_pos hone]
            have hnesteq : nest = 1 := by omega
            subst hnesteq
            constructor
            · intro h
              injection h with h
              subst h
              refine ⟨le_rfl, hcur, by omega, ?_⟩
              intro k hk1 hk2
              omega
            · rintro ⟨hj1, hj2, hj3, hj4⟩
              rcases Nat.eq_or_lt_of_le hj1 with hk | hk
              · rw [hk]
              · exact absurd hbal1 (by
                  have := hj4 cursor le_rfl hk
                  omega)
          · rw [if_neg hone]
            rw [ih (cursor + 1) (by omega) (nest - 1) (by omega) j]
            constructor
            · rintro ⟨hj1, hj2, hj3, hj4⟩
              refine ⟨by omega, hj2, by omega, ?_⟩
              intro k hk1 hk2
              rcases Nat.eq_or_lt_of_le hk1 with hk | hk
              · subst hk
                omega
              · have := hj4 k (by omega) hk2
                omega
            · rintro ⟨hj1, hj2, hj3, hj4⟩
              have hjne : j ≠ cursor := by
                intro h
                subst h
                omega
              refine ⟨by omega, hj2, by omega, ?_⟩
              intro k hk1 hk2
              have := hj4 k (by omega) hk2
              omega
        · rw [if_neg hcl]
          have hbal1 : bal s (cursor + 1) = bal s cursor := by
            rw [bal_succ, hgetd]
            have : delta s[cursor] = 0 := by
              unfold delta
              rw [if_neg hbr, if_neg hcl]
            rw [this, add_zero]
          rw [ih (cursor + 1) (by omega) nest hnest j]
          constructor
          · rintro ⟨hj1, hj2, hj3, hj4⟩
            refine ⟨by omega, hj2, by omega, ?_⟩
            intro k hk1 hk2
            rcases Nat.eq_or_lt_of_le hk1 with hk | hk
            · subst hk
              omega
            · have := hj4 k (by omega) hk2
              omega
          · rintro ⟨hj1, hj2, hj3, hj4⟩
            have hjne : j ≠ cursor := by
              intro h
              subst h
              omega
            refine ⟨by omega, hj2, by omega, ?_⟩
            intro k hk1 hk2
            have := hj4 k (by omega) hk2
            omega
    · show (if h : cursor < s.length then
          if s[cursor] = '[' then tla_aux s fuel (cursor + 1) (nest + 1)
          else if s[cursor] = ']' then
            if nest - 1 = 0 then some cursor
            else tla_aux s fuel (cursor + 1) (nest - 1)
          else tla_aux s fuel (cursor + 1) nest
        else none) = some j ↔ _
      rw [dif_neg hcur]
      constructor
      · intro h
        exact Option.noConfusion h
      · rintro ⟨h1, h2, _, _⟩
        omega

/-- Characterization of `tag_lookahead`: the least position after `index`
where the balance drops one below the balance just past `index`. -/
theorem tla_some_iff (s : List Char) (i j : Nat) :
    tag_lookahead s i = some j ↔
      (i < j ∧ j < s.length ∧ bal s (j + 1) = bal s (i + 1) - 1 ∧
       ∀ k, i + 1 ≤ k → k < j → bal s (k + 1) ≠ bal s (i + 1) - 1) := by
  unfold tag_lookahead
  rw [tla_aux_some_iff s (s.length - i) (i + 1) (by omega) 1 le_rfl j]
  constructor
  · rintro ⟨h1, h2, h3, h4⟩
    exact ⟨by omega, h2, h3, h4⟩
  · rintro ⟨h1, h2, h3, h4⟩
    exact ⟨by omega, h2, h3, h4⟩

theorem tla_lt (s : List Char) (i j : Nat)
    (h : tag_lookahead s i = some j) : i < j :=
  ((tla_some_iff s i j).mp h).1

theorem tla_lt_length (s : List Char) (i j : Nat)
    (h : tag_lookahead s i = some j) : j < s.length :=
  ((tla_some_iff s i j).mp h).2.1

/-- A successful lookahead lands on a loop-end token. -/
theorem tla_close_char (s : List Char) (i j : Nat)
    (h : tag_lookahead s i = some j) : s.getD j ' ' = ']' := by
  obtain ⟨h1, h2, h3, h4⟩ := (tla_some_iff s i j).mp h
  have hstep := delta_bounds (s.getD j ' ')
  have hbalj : bal s (i + 1) - 1 < bal s j := by
    by_contra hc
    push_neg at hc
    obtain ⟨m, hm1, hm2, hm3⟩ :=
      ivt_down s (j - (i + 1)) (i + 1) j (bal s (i + 1) - 1) (by omega)
        (by omega) (by omega) hc
    rcases Nat.eq_or_lt_of_le hm1 with hm | hm
    · rw [← hm] at hm3
      omega
    · have hmj : m - 1 < j := by omega
      have := h4 (m - 1) (by omega) hmj
      have hms : m - 1 + 1 = m := by omega
      rw [hms] at this
      exact this hm3
  have hdelta : delta (s.getD j ' ') = -1 := by
    have : bal s (j + 1) = bal s j + delta (s.getD j ' ') := bal_succ s j
    omega
  exact (delta_eq_negone_iff _).mp hdelta

/-- Distinct loop-starts have distinct lookahead matches. -/
theorem tla_inj (s : List Char) (i1 i2 j : Nat)
    (hc1 : s.getD i1 ' ' = '[') (hc2 : s.getD i2 ' ' = '[')
    (h1 : tag_lookahead s i1 = some j) (h2 : tag_lookahead s i2 = some j) :
    i1 = i2 := by
  have key : ∀ a b, s.getD a ' ' = '[' → s.getD b ' ' = '[' → a < b →
      tag_lookahead s a = some j → tag_lookahead s b = some j → False := by
    intro a b hca hcb hab ha hb
    obtain ⟨ha1, ha2, ha3, ha4⟩ := (tla_some_iff s a j).mp ha
    obtain ⟨hb1, hb2, hb3, hb4⟩ := (tla_some_iff s b j).mp hb
    have hstepa : bal s (a + 1) = bal s a + 1 := by
      rw [bal_succ, hca]
      norm_num [delta]
    have hstepb : bal s (b + 1) = bal s b + 1 := by
      rw [bal_succ, hcb]
      norm_num [delta]
    rcases Nat.eq_or_lt_of_le (show a + 1 ≤ b by omega) with hb' | hb'
    · subst hb'
      omega
    · have := ha4 (b - 1) (by omega) (by omega)
      have hbs : b - 1 + 1 = b := by omega
      rw [hbs] at this
      omega
  rcases Nat.lt_trichotomy i1 i2 with h | h | h
  · exact absurd (key i1 i2 hc1 hc2 h h1 h2) (fun f => f)
  · exact h
  · exact absurd (key i2 i1 hc2 hc1 h h2 h1) (fun f => f)

/-- When no later position brings the balance one below, the lookahead
fails. -/
theorem tla_eq_none (s : List Char) (i : Nat)
    (h : ∀ j, i < j → j < s.length → bal s (j + 1) ≠ bal s (i + 1) - 1) :
    tag_lookahead s i = none := by
  cases hc : tag_lookahead s i with
  | none => rfl
  | some j =>
    obtain ⟨h1, h2, h3, _⟩ := (tla_some_iff s i j).mp hc
    exact absurd h3 (h j h1 h2)

theorem bal_zero (s : List Char) : bal s 0 = 0 := rfl

/-- Least balance hit: from a witness position satisfying a balance
equation, extract the least one. -/
theorem exists_least_bal_hit (s : List Char) (t : Int) (lo : Nat)
    (hex : ∃ j, lo ≤ j ∧ j < s.length ∧ bal s (j + 1) = t) :
    ∃ j, lo ≤ j ∧ j < s.length ∧ bal s (j + 1) = t ∧
      ∀ k, lo ≤ k → k < j → bal s (k + 1) ≠ t := by
  classical
  have hfind := Nat.find_spec hex
  refine ⟨Nat.find hex, hfind.1, hfind.2.1, hfind.2.2, ?_⟩
  intro k hk1 hk2 hk3
  exact Nat.find_min hex hk2 ⟨hk1, by
    have := hfind.2.1
    omega, hk3⟩

/-- Greatest balance hit below a bound. -/
theorem exists_greatest_bal (s : List Char) (t : Int) (n m : Nat)
    (hm : m ≤ n) (hPm : bal s m = t) :
    ∃ i, i ≤ n ∧ bal s i = t ∧ ∀ k, i < k → k ≤ n → bal s k ≠ t := by
  have hspec := @Nat.findGreatest_spec m (fun i => bal s i = t) _ n hm hPm
  refine ⟨Nat.findGreatest (fun i => bal s i = t) n,
    Nat.findGreatest_le n, hspec, ?_⟩
  intro k hk1 hk2
  exact @Nat.findGreatest_is_greatest k (fun i => bal s i = t) _ n hk1 hk2

/-- In a balanced program every loop-start finds a match. -/
theorem exists_tla_of_open (s : List Char) (hbal : Balanced s) (i : Nat)
    (hi : s.getD i ' ' = '[') : ∃ j, tag_lookahead s i = some j := by
  have hilen : i < s.length := lt_length_of_getD s i '[' hi (by decide)
  have hstep : bal s (i + 1) = bal s i + 1 := by
    rw [bal_succ, hi]
    norm_num [delta]
  have hnn : 0 ≤ bal s i := hbal.1 i (by omega)
  obtain ⟨m, hm1, hm2, hm3⟩ :=
    ivt_down s (s.length - (i + 1)) (i + 1) s.length (bal s i) le_rfl
      (by omega) (by omega) (by rw [hbal.2]; exact hnn)
  have hm4 : i + 2 ≤ m := by
    rcases Nat.eq_or_lt_of_le hm1 with h | h
    · rw [← h] at hm3
      omega
    · omega
  have hex : ∃ j, i + 1 ≤ j ∧ j < s.length ∧ bal s (j + 1) = bal s (i + 1) - 1 := by
    refine ⟨m - 1, by omega, by omega, ?_⟩
    have hms : m - 1 + 1 = m := by omega
    rw [hms, hm3]
    omega
  obtain ⟨j, hj1, hj2, hj3, hj4⟩ :=
    exists_least_bal_hit s (bal s (i + 1) - 1) (i + 1) hex
  refine ⟨j, ?_⟩
  rw [tla_some_iff]
  exact ⟨by omega, hj2, hj3, hj4⟩

/-- In a balanced program every loop-end is the match of some earlier
loop-start. -/
theorem exists_open_for_close (s : List Char) (hbal : Balanced s) (j : Nat)
    (hj : s.getD j ' ' = ']') :
    ∃ i, i < j ∧ s.getD i ' ' = '[' ∧ tag_lookahead s i = some j := by
  have hjlen : j < s.length := lt_length_of_getD s j ']' hj (by decide)
  have hstep : bal s (j + 1) = bal s j - 1 := by
    rw [bal_succ, hj]
    have hd : delta ']' = -1 := by decide
    rw [hd]
    ring
  have hnn : 0 ≤ bal s (j + 1) := hbal.1 (j + 1) (by omega)
  have hbal0 := bal_zero s
  obtain ⟨m, hm1, hm2, hm3⟩ :=
    ivt_up s j 0 j (bal s (j + 1)) (by omega) (by omega)
      (by omega) (by omega)
  obtain ⟨i, hle, hspec, hgreat⟩ :=
    exists_greatest_bal s (bal s (j + 1)) j m hm2 hm3
  have hij : i < j := by
    rcases Nat.eq_or_lt_of_le hle with h | h
    · exfalso
      rw [h] at hspec
      omega
    · exact h
  have habove : ∀ k, i < k → k ≤ j → bal s (j + 1) + 1 ≤ bal s k := by
    intro k hk1 hk2
    have hne : bal s k ≠ bal s (j + 1) := hgreat k hk1 hk2
    by_contra hc
    push_neg at hc
    have hklow : bal s k ≤ bal s (j + 1) := by omega
    obtain ⟨m', hm'1, hm'2, hm'3⟩ :=
      ivt_up s (j - k) k j (bal s (j + 1)) le_rfl hk2 hklow (by omega)
    rcases Nat.eq_or_lt_of_le hm'1 with h | h
    · rw [← h] at hm'3
      exact hne hm'3
    · exact hgreat m' (by omega) hm'2 hm'3
  have hi1 : bal s (i + 1) = bal s i + 1 := by
    have h1 := habove (i + 1) (by omega) (by omega)
    have h2 := delta_bounds (s.getD i ' ')
    have h3 := bal_succ s i
    omega
  have hopen : s.getD i ' ' = '[' := by
    have h3 := bal_succ s i
    have : delta (s.getD i ' ') = 1 := by omega
    exact (delta_eq_one_iff _).mp this
  refine ⟨i, hij, hopen, ?_⟩
  rw [tla_some_iff]
  refine ⟨hij, hjlen, by omega, ?_⟩
  intro k hk1 hk2 hk3
  have := habove (k + 1) (by omega) (by omega)
  omega

/-- A program with a negative prefix has a first loop-end that closes more
than was opened; before it every prefix balance is nonnegative and zero at
the offending token. -/
theorem first_neg_crossing (s : List Char) (h : ∃ k, bal s k < 0) :
    ∃ j, j < s.length ∧ s.getD j ' ' = ']' ∧ bal s j = 0 ∧
      bal s (j + 1) = -1 ∧ ∀ m, m ≤ j → 0 ≤ bal s m := by
  have hfind := Nat.find_spec h
  set kmin := Nat.find h with hkm
  have hmin : ∀ m, m < kmin → 0 ≤ bal s m := by
    intro m hm
    have := Nat.find_min h hm
    omega
  have hk1 : kmin ≠ 0 := by
    intro h0
    rw [h0] at hfind
    unfold bal at hfind
    omega
  set j := kmin - 1 with hj
  have hjs : j + 1 = kmin := by omega
  have hjnn : 0 ≤ bal s j := hmin j (by omega)
  have hstep := delta_bounds (s.getD j ' ')
  have hsucc := bal_succ s j
  rw [hjs] at hsucc
  have hbalj : bal s j = 0 := by omega
  have hbalj1 : bal s kmin = -1 := by omega
  have hdelta : delta (s.getD j ' ') = -1 := by omega
  have hclose : s.getD j ' ' = ']' := (delta_eq_negone_iff _).mp hdelta
  refine ⟨j, lt_length_of_getD s j ']' hclose (by decide), hclose, hbalj,
    by rw [hjs]; exact hbalj1, ?_⟩
  intro m hm
  rcases Nat.eq_or_lt_of_le hm with h | h
  · rw [h]
    omega
  · exact hmin m (by omega)

/-- A program with no negative prefix but positive total balance has a
loop-start whose lookahead can never succeed. -/
theorem unclosed_open (s : List Char) (hpos : ∀ k, 0 ≤ bal s k)
    (hne : bal s s.length ≠ 0) :
    ∃ i, i < s.length ∧ s.getD i ' ' = '[' ∧
      ∀ j, i < j → j < s.length → bal s (j + 1) ≠ bal s (i + 1) - 1 := by
  have hd : 1 ≤ bal s s.length := by
    have := hpos s.length
    omega
  have hbal0 := bal_zero s
  obtain ⟨m, hm1, hm2, hm3⟩ :=
    ivt_up s s.length 0 s.length (bal s s.length - 1) (by omega) (by omega)
      (by omega) (by omega)
  obtain ⟨i, hle, hspec, hgreat⟩ :=
    exists_greatest_bal s (bal s s.length - 1) s.length m hm2 hm3
  have hij : i < s.length := by
    rcases Nat.eq_or_lt_of_le hle with h | h
    · exfalso
      rw [h] at hspec
      omega
    · exact h
  have habove : ∀ k, i < k → k ≤ s.length → bal s s.length ≤ bal s k := by
    intro k hk1 hk2
    have hkne : bal s k ≠ bal s s.length - 1 := hgreat k hk1 hk2
    by_contra hc
    push_neg at hc
    obtain ⟨m', hm'1, hm'2, hm'3⟩ :=
      ivt_up s (s.length - k) k s.length (bal s s.length - 1) le_rfl hk2
        (by omega) (by omega)
    rcases Nat.eq_or_lt_of_le hm'1 with h | h
    · rw [← h] at hm'3
      exact hkne hm'3
    · exact hgreat m' (by omega) hm'2 hm'3
  have hi1 : bal s (i + 1) = bal s i + 1 := by
    have h1 := habove (i + 1) (by omega) (by omega)
    have h2 := delta_bounds (s.getD i ' ')
    have h3 := bal_succ s i
    omega
  have hopen : s.getD i ' ' = '[' := by
    have h3 := bal_succ s i
    have : delta (s.getD i ' ') = 1 := by omega
    exact (delta_eq_one_iff _).mp this
  refine ⟨i, hij, hopen, ?_⟩
  intro j hj1 hj2
  have := habove (j + 1) (by omega) (by omega)
  omega

theorem dlookup_nil (k : Nat) : dlookup [] k = none := rfl

theorem dlookup_cons (a b k : Nat) (rest : List (Nat × Nat)) :
    dlookup ((a, b) :: rest) k = if k = a then some b else dlookup rest k := rfl

/-- Matching relation recorded by `construct_tags` after processing the
first `n` indices: one side is a loop-start before `n` whose lookahead
found the other. -/
def Rel (s : List Char) (n a b : Nat) : Prop :=
  (a < n ∧ s.getD a ' ' = '[' ∧ tag_lookahead s a = some b) ∨
  (b < n ∧ s.getD b ' ' = '[' ∧ tag_lookahead s b = some a)

/-- Invariant of the `construct_tags` loop: the tags list is sound for the
matching relation and complete for every loop-start already processed. -/
def CTInv (s : List Char) (n : Nat) (tags : List (Nat × Nat)) : Prop :=
  (∀ a b, dlookup tags a = some b → Rel s n a b) ∧
  (∀ i j, i < n → s.getD i ' ' = '[' → tag_lookahead s i = some j →
    dlookup tags i = some j ∧ dlookup tags j = some i)

theorem ctinv_zero (s : List Char) : CTInv s 0 [] := by
  constructor
  · intro a b h
    rw [dlookup_nil] at h
    exact Option.noConfusion h
  · intro i j h
    omega

theorem rel_mono (s : List Char) (n a b : Nat) :
    Rel s n a b → Rel s (n + 1) a b := by
  rintro (⟨h1, h2, h3⟩ | ⟨h1, h2, h3⟩)
  · exact Or.inl ⟨by omega, h2, h3⟩
  · exact Or.inr ⟨by omega, h2, h3⟩

theorem rel_to_length (s : List Char) (n a b : Nat) :
    Rel s n a b → Rel s s.length a b := by
  rintro (⟨h1, h2, h3⟩ | ⟨h1, h2, h3⟩)
  · exact Or.inl ⟨lt_length_of_getD s a '[' h2 (by decide), h2, h3⟩
  · exact Or.inr ⟨lt_length_of_getD s b '[' h2 (by decide), h2, h3⟩

theorem ctinv_step_other (s : List Char) (n : Nat) (tags : List (Nat × Nat))
    (hInv : CTInv s n tags) (hc : s.getD n ' ' ≠ '[') :
    CTInv s (n + 1) tags := by
  constructor
  · intro a b h
    exact rel_mono s n a b (hInv.1 a b h)
  · intro i j h1 h2 h3
    rcases Nat.lt_succ_iff_lt_or_eq.mp h1 with h | h
    · exact hInv.2 i j h h2 h3
    · subst h
      exact absurd h2 hc

theorem ctinv_step_open (s : List Char) (n j0 : Nat) (tags : List (Nat × Nat))
    (hInv : CTInv s n tags) (hc : s.getD n ' ' = '[')
    (hla : tag_lookahead s n = some j0) :
    CTInv s (n + 1) ((j0, n) :: (n, j0) :: tags) := by
  have hnj : n < j0 := tla_lt s n j0 hla
  have hj0c : s.getD j0 ' ' = ']' := tla_close_char s n j0 hla
  constructor
  · intro a b h
    rw [dlookup_cons] at h
    by_cases ha1 : a = j0
    · rw [if_pos ha1] at h
      injection h with h
      subst ha1
      subst h
      exact Or.inr ⟨by omega, hc, hla⟩
    · rw [if_neg ha1, dlookup_cons] at h
      by_cases ha2 : a = n
      · rw [if_pos ha2] at h
        injection h with h
        subst ha2
        subst h
        exact Or.inl ⟨by omega, hc, hla⟩
      · rw [if_neg ha2] at h
        exact rel_mono s n a b (hInv.1 a b h)
  · intro i j h1 h2 h3
    rcases Nat.lt_succ_iff_lt_or_eq.mp h1 with h | h
    · obtain ⟨hli, hlj⟩ := hInv.2 i j h h2 h3
      have hjc : s.getD j ' ' = ']' := tla_close_char s i j h3
      have hi_ne_j0 : i ≠ j0 := by
        intro he
        rw [he, hj0c] at h2
        exact absurd h2 (by decide)
      have hi_ne_n : i ≠ n := by omega
      have hj_ne_n : j ≠ n := by
        intro he
        rw [he, hc] at hjc
        exact absurd hjc (by decide)
      have hj_ne_j0 : j ≠ j0 := by
        intro he
        subst he
        have := tla_inj s i n j h2 hc h3 hla
        omega
      constructor
      · rw [dlookup_cons, if_neg hi_ne_j0, dlookup_cons, if_neg hi_ne_n]
        exact hli
      · rw [dlookup_cons, if_neg hj_ne_j0, dlookup_cons, if_neg hj_ne_n]
        exact hlj
    · subst h
      rw [hla] at h3
      injection h3 with h3
      subst h3
      constructor
      · rw [dlookup_cons, if_neg (by omega), dlookup_cons, if_pos rfl]
      · rw [dlookup_cons, if_pos rfl]

/-- Bindings present when `ct_aux` starts survive to a successful end. -/
theorem ct_aux_preserves (s : List Char) :
    ∀ fuel idx tags m, s.length ≤ idx + fuel → CTInv s idx tags →
      ct_aux s fuel idx tags = .ok m →
      ∀ a b, dlookup tags a = some b → dlookup m a = some b := by
  intro fuel
  induction fuel with
  | zero =>
    intro idx tags m hn hInv hok a b h
    injection hok with hok
    rw [← hok]
    exact h
  | succ fuel ih =>
    intro idx tags m hn hInv hok a b h
    by_cases hidx : idx < s.length
    · have hgetd : s.getD idx ' ' = s[idx] := List.getD_eq_getElem s ' ' hidx
      unfold ct_aux at hok
      rw [dif_pos hidx] at hok
      by_cases hbr : s[idx] = '['
      · rw [if_pos hbr] at hok
        have hcopen : s.getD idx ' ' = '[' := by rw [hgetd, hbr]
        cases hla : tag_lookahead s idx with
        | none => rw [hla] at hok; cases hok
        | some j0 =>
          rw [hla] at hok
          have hj0c : s.getD j0 ' ' = ']' := tla_close_char s idx j0 hla
          have ha_ne_idx : a ≠ idx := by
            intro he
            subst he
            rcases hInv.1 a b h with ⟨h1, _, _⟩ | ⟨_, _, h3⟩
            · omega
            · have hcl := tla_close_char s b a h3
              rw [hcopen] at hcl
              exact absurd hcl (by decide)
          have ha_ne_j0 : a ≠ j0 := by
            intro he
            subst he
            rcases hInv.1 a b h with ⟨_, h2, _⟩ | ⟨h1, h2, h3⟩
            · rw [hj0c] at h2
              exact absurd h2 (by decide)
            · have := tla_inj s b idx a h2 hcopen h3 hla
              omega
          refine ih (idx + 1) _ m (by omega)
            (ctinv_step_open s idx j0 tags hInv hcopen hla) hok a b ?_
          rw [dlookup_cons, if_neg ha_ne_j0, dlookup_cons, if_neg ha_ne_idx]
          exact h
      · rw [if_neg hbr] at hok
        have hcnot : s.getD idx ' ' ≠ '[' := by rw [hgetd]; exact hbr
        by_cases hcl : s[idx] = ']'
        · rw [if_pos hcl] at hok
          by_cases hmem : (dlookup tags idx).isSome
          · rw [if_pos hmem] at hok
            exact ih (idx + 1) tags m (by omega)
              (ctinv_step_other s idx tags hInv hcnot) hok a b h
          · rw [if_neg hmem] at hok
            cases hok
        · rw [if_neg hcl] at hok
          exact ih (idx + 1) tags m (by omega)
            (ctinv_step_other s idx tags hInv hcnot) hok a b h
    · unfold ct_aux at hok
      rw [dif_neg hidx] at hok
      injection hok with hok
      rw [← hok]
      exact h

/-- What a successful `construct_tags` run guarantees: the invariant at
the end of the source, every loop-start from the unprocessed region has a
match, and every loop-end there is some loop-start's match. -/
theorem ct_aux_ok_spec (s : List Char) :
    ∀ fuel idx tags m, s.length ≤ idx + fuel → CTInv s idx tags →
      ct_aux s fuel idx tags = .ok m →
      CTInv s s.length m ∧
      ∀ p, idx ≤ p → p < s.length →
        (s.getD p ' ' = '[' → ∃ j, tag_lookahead s p = some j) ∧
        (s.getD p ' ' = ']' →
          ∃ b, s.getD b ' ' = '[' ∧ tag_lookahead s b = some p) := by
  intro fuel
  induction fuel with
  | zero =>
    intro idx tags m hn hInv hok
    injection hok with hok
    subst hok
    constructor
    · exact ⟨fun a b h => rel_to_length s idx a b (hInv.1 a b h),
        fun i j h1 h2 h3 => hInv.2 i j (by omega) h2 h3⟩
    · intro p hp1 hp2
      omega
  | succ fuel ih =>
    intro idx tags m hn hInv hok
    by_cases hidx : idx < s.length
    · have hgetd : s.getD idx ' ' = s[idx] := List.getD_eq_getElem s ' ' hidx
      unfold ct_aux at hok
      rw [dif_pos hidx] at hok
      by_cases hbr : s[idx] = '['
      · rw [if_pos hbr] at hok
        have hcopen : s.getD idx ' ' = '[' := by rw [hgetd, hbr]
        cases hla : tag_lookahead s idx with
        | none => rw [hla] at hok; cases hok
        | some j0 =>
          rw [hla] at hok
          obtain ⟨hfin, hrange⟩ := ih (idx + 1) _ m (by omega)
            (ctinv_step_open s idx j0 tags hInv hcopen hla) hok
          refine ⟨hfin, ?_⟩
          intro p hp1 hp2
          rcases Nat.eq_or_lt_of_le hp1 with hp | hp
          · subst hp
            refine ⟨fun _ => ⟨j0, hla⟩, fun hcl => ?_⟩
            rw [hcopen] at hcl
            exact absurd hcl (by decide)
          · exact hrange p (by omega) hp2
      · rw [if_neg hbr] at hok
        have hcnot : s.getD idx ' ' ≠ '[' := by rw [hgetd]; exact hbr
        by_cases hcl : s[idx] = ']'
        · rw [if_pos hcl] at hok
          have hcclose : s.getD idx ' ' = ']' := by rw [hgetd, hcl]
          by_cases hmem : (dlookup tags idx).isSome
          · rw [if_pos hmem] at hok
            obtain ⟨hfin, hrange⟩ := ih (idx + 1) tags m (by omega)
              (ctinv_step_other s idx tags hInv hcnot) hok
            refine ⟨hfin, ?_⟩
            intro p hp1 hp2
            rcases Nat.eq_or_lt_of_le hp1 with hp | hp
            · subst hp
              refine ⟨fun hb => absurd hb hcnot, fun _ => ?_⟩
              obtain ⟨b, hb⟩ := Option.isSome_iff_exists.mp hmem
              rcases hInv.1 idx b hb with ⟨_, h2, _⟩ | ⟨_, h2, h3⟩
              · exact absurd h2 hcnot
              · exact ⟨b, h2, h3⟩
            · exact hrange p (by omega) hp2
          · rw [if_neg hmem] at hok
            cases hok
        · rw [if_neg hcl] at hok
          have hccl : s.getD idx ' ' ≠ ']' := by rw [hgetd]; exact hcl
          obtain ⟨hfin, hrange⟩ := ih (idx + 1) tags m (by omega)
            (ctinv_step_other s idx tags hInv hcnot) hok
          refine ⟨hfin, ?_⟩
          intro p hp1 hp2
          rcases Nat.eq_or_lt_of_le hp1 with hp | hp
          · subst hp
            exact ⟨fun hb => absurd hb hcnot, fun hb => absurd hb hccl⟩
          · exact hrange p (by omega) hp2
    · unfold ct_aux at hok
      rw [dif_neg hidx] at hok
      injection hok with hok
      subst hok
      constructor
      · exact ⟨fun a b h => rel_to_length s idx a b (hInv.1 a b h),
          fun i j h1 h2 h3 => hInv.2 i j (by omega) h2 h3⟩
      · intro p hp1 hp2
        omega

/-- On a balanced source, `construct_tags` never raises. -/
theorem ct_aux_ok_of_balanced (s : List Char) (hbal : Balanced s) :
    ∀ fuel idx tags, s.length ≤ idx + fuel → CTInv s idx tags →
      ∃ m, ct_aux s fuel idx tags = .ok m := by
  intro fuel
  induction fuel with
  | zero =>
    intro idx tags hn hInv
    exact ⟨tags, rfl⟩
  | succ fuel ih =>
    intro idx tags hn hInv
    by_cases hidx : idx < s.length
    · have hgetd : s.getD idx ' ' = s[idx] := List.getD_eq_getElem s ' ' hidx
      unfold ct_aux
      rw [dif_pos hidx]
      by_cases hbr : s[idx] = '['
      · rw [if_pos hbr]
        have hcopen : s.getD idx ' ' = '[' := by rw [hgetd, hbr]
        obtain ⟨j0, hla⟩ := exists_tla_of_open s hbal idx hcopen
        rw [hla]
        exact ih (idx + 1) _ (by omega)
          (ctinv_step_open s idx j0 tags hInv hcopen hla)
      · rw [if_neg hbr]
        have hcnot : s.getD idx ' ' ≠ '[' := by rw [hgetd]; exact hbr
        by_cases hcl : s[idx] = ']'
        · rw [if_pos hcl]
          have hcclose : s.getD idx ' ' = ']' := by rw [hgetd, hcl]
          obtain ⟨i, hi1, hi2, hi3⟩ := exists_open_for_close s hbal idx hcclose
          have hmem : (dlookup tags idx).isSome := by
            rw [(hInv.2 i idx hi1 hi2 hi3).2]
            rfl
          rw [if_pos hmem]
          exact ih (idx + 1) tags (by omega)
            (ctinv_step_other s idx tags hInv hcnot)
        · rw [if_neg hcl]
          exact ih (idx + 1) tags (by omega)
            (ctinv_step_other s idx tags hInv hcnot)
    · unfold ct_aux
      rw [dif_neg hidx]
      exact ⟨tags, rfl⟩

/-- A `construct_tags` failure carries an index inside the source. -/
theorem ct_aux_error_lt (s : List Char) :
    ∀ fuel idx tags i, ct_aux s fuel idx tags = .error i →
      idx ≤ i ∧ i < s.length := by
  intro fuel
  induction fuel with
  | zero =>
    intro idx tags i herr
    cases herr
  | succ fuel ih =>
    intro idx tags i herr
    by_cases hidx : idx < s.length
    · unfold ct_aux at herr
      rw [dif_pos hidx] at herr
      by_cases hbr : s[idx] = '['
      · rw [if_pos hbr] at herr
        cases hla : tag_lookahead s idx with
        | none =>
          rw [hla] at herr
          injection herr with herr
          omega
        | some j0 =>
          rw [hla] at herr
          have := ih (idx + 1) _ i herr
          omega
      · rw [if_neg hbr] at herr
        by_cases hcl : s[idx] = ']'
        · rw [if_pos hcl] at herr
          by_cases hmem : (dlookup tags idx).isSome
          · rw [if_pos hmem] at herr
            have := ih (idx + 1) tags i herr
            omega
          · rw [if_neg hmem] at herr
            injection herr with herr
            omega
        · rw [if_neg hcl] at herr
          have := ih (idx + 1) tags i herr
          omega
    · unfold ct_aux at herr
      rw [dif_neg hidx] at herr
      cases herr

/-- A successfully resolved source is balanced. -/
theorem construct_tags_ok_balanced (s : List Char) (m : List (Nat × Nat))
    (hok : construct_tags s = .ok m) : Balanced s := by
  obtain ⟨hfin, hrange⟩ :=
    ct_aux_ok_spec s s.length 0 [] m (by omega) (ctinv_zero s) hok
  have hpart1 : ∀ k, 0 ≤ bal s k := by
    by_contra hc
    push_neg at hc
    obtain ⟨k0, hk0⟩ := hc
    obtain ⟨j, hj1, hj2, hj3, hj4, hj5⟩ := first_neg_crossing s ⟨k0, by omega⟩
    obtain ⟨b, hb1, hb2⟩ := (hrange j (by omega) hj1).2 hj2
    obtain ⟨hlt, _, hbal1, _⟩ := (tla_some_iff s b j).mp hb2
    have hstep : bal s (b + 1) = bal s b + 1 := by
      rw [bal_succ, hb1]
      norm_num [delta]
    have := hj5 b (by omega)
    omega
  constructor
  · intro k _
    exact hpart1 k
  · by_contra hne
    obtain ⟨i, hi1, hi2, hi3⟩ := unclosed_open s hpart1 hne
    obtain ⟨j, hj⟩ := (hrange i (by omega) hi1).1 hi2
    obtain ⟨hlt, hlen, hbal1, _⟩ := (tla_some_iff s i j).mp hj
    exact hi3 j hlt hlen hbal1

/-- On a balanced source, bracket resolution succeeds and the resulting
map satisfies the loop invariant at the end of the source. -/
theorem construct_tags_of_balanced (s : List Char) (hbal : Balanced s) :
    ∃ m, construct_tags s = .ok m ∧ CTInv s s.length m := by
  obtain ⟨m, hm⟩ :=
    ct_aux_ok_of_balanced s hbal s.length 0 [] (by omega) (ctinv_zero s)
  exact ⟨m, hm, (ct_aux_ok_spec s s.length 0 [] m (by omega) (ctinv_zero s) hm).1⟩

/-- The nesting level of a negative-entry forward scan is already spent:
the compiler's lookahead loop exits at once and reports the previous
position. -/
theorem cla_aux_neg (s : List Char) :
    ∀ fuel lc (nest : Int), nest < 0 → cla_aux s fuel lc nest = some (lc - 1) := by
  intro fuel
  cases fuel with
  | zero =>
    intro lc nest hneg
    show (if nest < 0 then some (lc - 1) else none) = some (lc - 1)
    rw [if_pos hneg]
  | succ fuel =>
    intro lc nest hneg
    show (if 0 ≤ nest ∧ lc < s.length then
        cla_aux s fuel (lc + 1) (nest + delta (s.getD lc ' '))
      else if nest < 0 then some (lc - 1) else none) = some (lc - 1)
    rw [if_neg (fun hcon => absurd hcon.1 (by omega)), if_pos hneg]

/-- The compiler's forward scan agrees with the interpreter's: entering
the loop of `__lookahead` with level `nest - 1` visits the same positions
and stops at the same place as `tag_lookahead`'s loop entered with level
`nest`. -/
theorem cla_eq_tla (s : List Char) :
    ∀ fuel cursor (nest : Int), 1 ≤ nest →
      cla_aux s fuel cursor (nest - 1) = tla_aux s fuel cursor nest := by
  intro fuel
  induction fuel with
  | zero =>
    intro cursor nest hnest
    show (if nest - 1 < 0 then some (cursor - 1) else none) = none
    rw [if_neg (by omega)]
  | succ fuel ih =>
    intro cursor nest hnest
    show (if 0 ≤ nest - 1 ∧ cursor < s.length then
        cla_aux s fuel (cursor + 1) (nest - 1 + delta (s.getD cursor ' '))
      else if nest - 1 < 0 then some (cursor - 1) else none) =
      (if h : cursor < s.length then
        if s[cursor] = '[' then tla_aux s fuel (cursor + 1) (nest + 1)
        else if s[cursor] = ']' then
          if nest - 1 = 0 then some cursor
          else tla_aux s fuel (cursor + 1) (nest - 1)
        else tla_aux s fuel (cursor + 1) nest
      else none)
    by_cases hcur : cursor < s.length
    · have hgetd : s.getD cursor ' ' = s[cursor] := List.getD_eq_getElem s ' ' hcur
      rw [if_pos ⟨by omega, hcur⟩, dif_pos hcur]
      by_cases hbr : s[cursor] = '['
      · rw [if_pos hbr]
        have hd : delta (s.getD cursor ' ') = 1 := by rw [hgetd, hbr]; decide
        rw [hd]
        have harith : nest - 1 + 1 = nest + 1 - 1 := by ring
        rw [harith]
        exact ih (cursor + 1) (nest + 1) (by omega)
      · rw [if_neg hbr]
        by_cases hcl : s[cursor] = ']'
        · rw [if_pos hcl]
          have hd : delta (s.getD cursor ' ') = -1 := by rw [hgetd, hcl]; decide
          rw [hd]
          by_cases hone : nest - 1 = 0
          · rw [if_pos hone]
            have hneg : nest - 1 + -1 = -1 := by omega
            rw [hneg, cla_aux_neg s fuel (cursor + 1) (-1) (by norm_num)]
            simp
          · rw [if_neg hone]
            have harith : nest - 1 + -1 = nest - 1 - 1 := by ring
            rw [harith]
            exact ih (cursor + 1) (nest - 1) (by omega)
        · rw [if_neg hcl]
          have hd : delta (s.getD cursor ' ') = 0 := by
            rw [hgetd]
            unfold delta
            rw [if_neg hbr, if_neg hcl]
          rw [hd, add_zero]
          exact ih (cursor + 1) nest hnest
    · rw [if_neg (fun hcon => hcur hcon.2), dif_neg hcur, if_neg (by omega)]

/-- bfc.py `__lookahead` computes the same match as bfi.py
`tag_lookahead`. -/
theorem clookahead_eq_tla (s : List Char) (i : Nat) :
    clookahead s i = tag_lookahead s i := by
  unfold clookahead tag_lookahead
  have h := cla_eq_tla s (s.length - i) (i + 1) 1 le_rfl
  norm_num at h
  exact h

/-- The backward scan of `__lookbehind` raises whenever its nesting level
can never go negative. -/
theorem clb_aux_none (s : List Char) :
    ∀ lc (nest : Int), 0 ≤ nest →
      (∀ m, 1 ≤ m → m ≤ lc → 0 ≤ nest + bal s m - bal s (lc + 1)) →
      clb_aux s lc nest = none := by
  intro lc
  induction lc with
  | zero =>
    intro nest h0 hH
    show (if nest < 0 then some 1 else none) = none
    rw [if_neg (by omega)]
  | succ lc ih =>
    intro nest h0 hH
    show (if 0 ≤ nest then clb_aux s lc (nest - delta (s.getD (lc + 1) ' '))
      else if nest < 0 then some (lc + 1 + 1) else none) = none
    rw [if_pos h0]
    have hstep : bal s (lc + 1 + 1) = bal s (lc + 1) + delta (s.getD (lc + 1) ' ') :=
      bal_succ s (lc + 1)
    apply ih
    · have := hH (lc + 1) (by omega) le_rfl
      omega
    · intro m hm1 hm2
      have := hH m hm1 (by omega)
      omega

/-- A loop-end whose prefix balance is zero (its mate would be at or
before index 0) makes `__lookbehind` raise. -/
theorem clookbehind_none (s : List Char) (j : Nat)
    (hnn : ∀ m, m ≤ j → 0 ≤ bal s m) (hbalj : bal s j = 0) :
    clookbehind s j = none := by
  unfold clookbehind
  apply clb_aux_none s (j - 1) 0 le_rfl
  intro m hm1 hm2
  by_cases hj0 : j = 0
  · subst hj0
    omega
  · have hone : j - 1 + 1 = j := by omega
    rw [hone]
    have := hnn m (by omega)
    omega

theorem slice_cons (s : List Char) (a b : Nat) (ha : a < s.length)
    (hab : a < b) : slice s a b = s[a] :: slice s (a + 1) b := by
  unfold slice
  rw [List.drop_eq_getElem_cons ha]
  have hstep : b - a = (b - (a + 1)) + 1 := by omega
  rw [hstep]
  rfl

theorem slice_nil (s : List Char) (a : Nat) : slice s a a = [] := by
  unfold slice
  rw [Nat.sub_self]
  rfl

theorem set_getD_self : ∀ (t : List Nat) (i : Nat), t.set i (t.getD i 0) = t := by
  intro t
  induction t with
  | nil => intro i; rfl
  | cons a l ih =>
    intro i
    cases i with
    | zero => rfl
    | succ i =>
      show (a :: l.set i (l.getD i 0)) = a :: l
      rw [ih i]

theorem getD_set_self : ∀ (t : List Nat) (i v : Nat), i < t.length →
    (t.set i v).getD i 0 = v := by
  intro t
  induction t with
  | nil =>
    intro i v h
    simp at h
  | cons a l ih =>
    intro i v h
    cases i with
    | zero => rfl
    | succ i =>
      show (l.set i v).getD i 0 = v
      exact ih i v (by simpa using h)

theorem execRun_gt (rest : List Char) (p : Int) (t : List Nat) :
    execRun ('>' :: rest) (p, t) = execRun rest (p + 1, t) := by
  simp [execRun]

theorem execRun_lt (rest : List Char) (p : Int) (t : List Nat) :
    execRun ('<' :: rest) (p, t) = execRun rest (p - 1, t) := by
  simp [execRun]

theorem execRun_plus (rest : List Char) (p : Int) (t : List Nat) :
    execRun ('+' :: rest) (p, t) =
      execRun rest (p, t.set p.toNat ((t.getD p.toNat 0 + 1) % 256)) := by
  simp [execRun]

theorem execRun_minus (rest : List Char) (p : Int) (t : List Nat) :
    execRun ('-' :: rest) (p, t) =
      execRun rest (p, t.set p.toNat ((t.getD p.toNat 0 + 255) % 256)) := by
  simp [execRun]

/-- Full specification of the shift-folding loop: it stops at the first
non-move position, the consumed range holds only move tokens, and running
those tokens one at a time shifts the pointer by exactly the accumulated
quantity while leaving the tape alone. -/
theorem shiftLoop_run (s : List Char) :
    ∀ fuel cursor, s.length ≤ cursor + fuel → ∀ consumed quantity c' cons' q',
      shiftLoop s fuel cursor consumed quantity = (c', cons', q') →
      cursor ≤ c' ∧
      (s.length ≤ cursor → c' = cursor) ∧
      (cursor < s.length → c' ≤ s.length) ∧
      (∀ k, cursor ≤ k → k < c' → (s.getD k ' ' = '<' ∨ s.getD k ' ' = '>')) ∧
      (c' < s.length → ¬(s.getD c' ' ' = '<' ∨ s.getD c' ' ' = '>')) ∧
      ∀ (p : Int) (t : List Nat),
        execRun (slice s cursor c') (p, t) = (p + (q' - quantity), t) := by
  intro fuel
  induction fuel with
  | zero =>
    intro cursor hn consumed quantity c' cons' q' h
    have hcur : ¬ cursor < s.length := by omega
    injection h with h1 h2
    injection h2 with h2 h3
    subst h1
    subst h3
    refine ⟨le_rfl, fun _ => rfl, by omega, by omega, fun hc => absurd hc hcur, ?_⟩
    intro p t
    rw [slice_nil]
    show (p, t) = _
    rw [sub_self, add_zero]
  | succ fuel ih =>
    intro cursor hn consumed quantity c' cons' q' h
    by_cases hcur : cursor < s.length
    · have hgetd : s.getD cursor ' ' = s[cursor] := List.getD_eq_getElem s ' ' hcur
      unfold shiftLoop at h
      rw [dif_pos hcur] at h
      by_cases hmv : s[cursor] = '<' ∨ s[cursor] = '>'
      · rw [if_pos hmv] at h
        obtain ⟨ih1, ih2, ih3, ih4, ih5, ih6⟩ := ih (cursor + 1) (by omega) _ _ _ _ _ h
        have hcc : cursor < c' := by
          rcases Nat.lt_or_ge (cursor + 1) s.length with hl | hl
          · omega
          · have := ih2 (by omega)
            omega
        refine ⟨by omega, by omega, ?_, ?_, ih5, ?_⟩
        · intro _
          rcases Nat.lt_or_ge (cursor + 1) s.length with hl | hl
          · exact ih3 hl
          · have := ih2 (by omega)
            omega
        · intro k hk1 hk2
          rcases Nat.eq_or_lt_of_le hk1 with hk | hk
          · subst hk
            rw [hgetd]
            exact hmv
          · exact ih4 k (by omega) hk2
        · intro p t
          rw [slice_cons s cursor c' hcur hcc]
          rcases hmv with hlt | hgt
          · rw [hlt, execRun_lt, ih6 (p - 1) t, hlt,
              if_neg (by decide : ¬ ('<' : Char) = '>')]
            congr 1
            ring
          · rw [hgt, execRun_gt, ih6 (p + 1) t, hgt,
              if_pos (rfl : ('>' : Char) = '>')]
            congr 1
            ring
      · rw [if_neg hmv] at h
        injection h with h1 h2
        injection h2 with h2 h3
        subst h1
        subst h3
        refine ⟨le_rfl, by omega, by omega, by omega, ?_, ?_⟩
        · intro _ hcontra
          rw [hgetd] at hcontra
          exact hmv hcontra
        · intro p t
          rw [slice_nil]
          show (p, t) = _
          rw [sub_self, add_zero]
    · have hc2 : ¬ cursor < s.length := hcur
      unfold shiftLoop at h
      rw [dif_neg hc2] at h
      injection h with h1 h2
      injection h2 with h2 h3
      subst h1
      subst h3
      refine ⟨le_rfl, fun _ => rfl, by omega, by omega, fun hc => absurd hc hc2, ?_⟩
      intro p t
      rw [slice_nil]
      show (p, t) = _
      rw [sub_self, add_zero]

/-- Full specification of the mutation-folding loop: it stops at the first
non-mutation position, the consumed range holds only mutation tokens, and
running those tokens one at a time adjusts the byte under the pointer by
the accumulated quantity modulo 256, leaving the pointer alone. -/
theorem mutLoop_run (s : List Char) :
    ∀ fuel cursor, s.length ≤ cursor + fuel → ∀ consumed quantity c' cons' q',
      mutLoop s fuel cursor consumed quantity = (c', cons', q') →
      cursor ≤ c' ∧
      (s.length ≤ cursor → c' = cursor) ∧
      (cursor < s.length → c' ≤ s.length) ∧
      (∀ k, cursor ≤ k → k < c' → (s.getD k ' ' = '+' ∨ s.getD k ' ' = '-')) ∧
      (c' < s.length → ¬(s.getD c' ' ' = '+' ∨ s.getD c' ' ' = '-')) ∧
      ∀ (p : Int) (t : List Nat), p.toNat < t.length → t.getD p.toNat 0 < 256 →
        execRun (slice s cursor c') (p, t) =
          (p, t.set p.toNat
            ((((t.getD p.toNat 0 : Int) + (q' - quantity)) % 256).toNat)) := by
  intro fuel
  induction fuel with
  | zero =>
    intro cursor hn consumed quantity c' cons' q' h
    have hcur : ¬ cursor < s.length := by omega
    injection h with h1 h2
    injection h2 with h2 h3
    subst h1
    subst h3
    refine ⟨le_rfl, fun _ => rfl, by omega, by omega, fun hc => absurd hc hcur, ?_⟩
    intro p t hidx hlt
    rw [slice_nil]
    show (p, t) = _
    rw [sub_self, add_zero,
      Int.emod_eq_of_lt (Int.natCast_nonneg _) (by exact_mod_cast hlt),
      Int.toNat_natCast, set_getD_self]
  | succ fuel ih =>
    intro cursor hn consumed quantity c' cons' q' h
    by_cases hcur : cursor < s.length
    · have hgetd : s.getD cursor ' ' = s[cursor] := List.getD_eq_getElem s ' ' hcur
      unfold mutLoop at h
      rw [dif_pos hcur] at h
      by_cases hmv : s[cursor] = '+' ∨ s[cursor] = '-'
      · rw [if_pos hmv] at h
        obtain ⟨ih1, ih2, ih3, ih4, ih5, ih6⟩ := ih (cursor + 1) (by omega) _ _ _ _ _ h
        have hcc : cursor < c' := by
          rcases Nat.lt_or_ge (cursor + 1) s.length with hl | hl
          · omega
          · have := ih2 (by omega)
            omega
        refine ⟨by omega, by omega, ?_, ?_, ih5, ?_⟩
        · intro _
          rcases Nat.lt_or_ge (cursor + 1) s.length with hl | hl
          · exact ih3 hl
          · have := ih2 (by omega)
            omega
        · intro k hk1 hk2
          rcases Nat.eq_or_lt_of_le hk1 with hk | hk
          · subst hk
            rw [hgetd]
            exact hmv
          · exact ih4 k (by omega) hk2
        · intro p t hidx hlt
          rw [slice_cons s cursor c' hcur hcc]
          rcases hmv with hpl | hmn
          · rw [hpl, execRun_plus,
              ih6 p _ (by simpa using hidx)
                (by rw [getD_set_self t _ _ hidx]; exact Nat.mod_lt _ (by norm_num)),
              hpl, if_pos (rfl : ('+' : Char) = '+'),
              getD_set_self t _ _ hidx, List.set_set]
            have hval : ((((t.getD p.toNat 0 + 1) % 256 : Nat) : Int) +
                  (q' - (quantity + 1))) % 256 =
                ((t.getD p.toNat 0 : Int) + (q' - quantity)) % 256 := by
              push_cast
              omega
            rw [hval]
          · rw [hmn, execRun_minus,
              ih6 p _ (by simpa using hidx)
                (by rw [getD_set_self t _ _ hidx]; exact Nat.mod_lt _ (by norm_num)),
              hmn, if_neg (by decide : ¬ ('-' : Char) = '+'),
              getD_set_self t _ _ hidx, List.set_set]
            have hval : ((((t.getD p.toNat 0 + 255) % 256 : Nat) : Int) +
                  (q' - (quantity + -1))) % 256 =
                ((t.getD p.toNat 0 : Int) + (q' - quantity)) % 256 := by
              push_cast
              omega
            rw [hval]
      · rw [if_neg hmv] at h
        injection h with h1 h2
        injection h2 with h2 h3
        subst h1
        subst h3
        refine ⟨le_rfl, by omega, by omega, by omega, ?_, ?_⟩
        · intro _ hcontra
          rw [hgetd] at hcontra
          exact hmv hcontra
        · intro p t hidx hlt
          rw [slice_nil]
          show (p, t) = _
          rw [sub_self, add_zero,
            Int.emod_eq_of_lt (Int.natCast_nonneg _) (by exact_mod_cast hlt),
            Int.toNat_natCast, set_getD_self]
    · unfold mutLoop at h
      rw [dif_neg hcur] at h
      injection h with h1 h2
      injection h2 with h2 h3
      subst h1
      subst h3
      refine ⟨le_rfl, fun _ => rfl, by omega, by omega, fun hc => absurd hc hcur, ?_⟩
      intro p t hidx hlt
      rw [slice_nil]
      show (p, t) = _
      rw [sub_self, add_zero,
        Int.emod_eq_of_lt (Int.natCast_nonneg _) (by exact_mod_cast hlt),
        Int.toNat_natCast, set_getD_self]

/-- Every bracket inside the range consumed by one `produce_instruction`
step had a successful scan. -/
theorem produce_instruction_scan (s : List Char) (cursor : Nat)
    (g : List Asm) (c' : Nat)
    (h : produce_instruction s cursor = .ok (g, c')) :
    ∀ p, cursor ≤ p → p < c' → p < s.length →
      (s.getD p ' ' = '[' → (clookahead s p).isSome) ∧
      (s.getD p ' ' = ']' → (clookbehind s p).isSome) := by
  unfold produce_instruction at h
  split at h
  case h_1 g0 c0 heq =>
    cases h
    unfold produce_shift at heq
    split at heq
    case isTrue hcons =>
      simp only [Option.some.injEq, Prod.mk.injEq] at heq
      obtain ⟨hg, hc⟩ := heq
      intro p hp1 hp2 hp3
      obtain ⟨_, _, _, hchars, _, _⟩ :=
        shiftLoop_run s (s.length - cursor) cursor (by omega) 0 0
          (shiftLoop s (s.length - cursor) cursor 0 0).1
          (shiftLoop s (s.length - cursor) cursor 0 0).2.1
          (shiftLoop s (s.length - cursor) cursor 0 0).2.2 rfl
      have hm := hchars p hp1 (by omega)
      constructor
      · intro hb
        rcases hm with hm | hm <;> rw [hm] at hb <;> exact absurd hb (by decide)
      · intro hb
        rcases hm with hm | hm <;> rw [hm] at hb <;> exact absurd hb (by decide)
    case isFalse => exact absurd heq (by simp)
  case h_2 =>
    split at h
    case h_1 g0 c0 heq =>
      cases h
      unfold produce_mutate at heq
      split at heq
      case isTrue hcons =>
        simp only [Option.some.injEq, Prod.mk.injEq] at heq
        obtain ⟨hg, hc⟩ := heq
        intro p hp1 hp2 hp3
        obtain ⟨_, _, _, hchars, _, _⟩ :=
          mutLoop_run s (s.length - cursor) cursor (by omega) 0 0
            (mutLoop s (s.length - cursor) cursor 0 0).1
            (mutLoop s (s.length - cursor) cursor 0 0).2.1
            (mutLoop s (s.length - cursor) cursor 0 0).2.2 rfl
        have hm := hchars p hp1 (by omega)
        constructor
        · intro hb
          rcases hm with hm | hm <;> rw [hm] at hb <;> exact absurd hb (by decide)
        · intro hb
          rcases hm with hm | hm <;> rw [hm] at hb <;> exact absurd hb (by decide)
      case isFalse => exact absurd heq (by simp)
    case h_2 =>
      split at h
      · case isTrue hbr =>
        split at h
        case h_1 j heq =>
          cases h
          intro p hp1 hp2 hp3
          have hp : p = cursor := by omega
          subst hp
          constructor
          · intro _
            rw [heq]
            rfl
          · intro hb
            rw [hbr] at hb
            exact absurd hb (by decide)
        case h_2 => cases h
      · case isFalse hbr =>
        split at h
        · case isTrue hcl =>
          split at h
          case h_1 i0 heq =>
            cases h
            intro p hp1 hp2 hp3
            have hp : p = cursor := by omega
            subst hp
            constructor
            · intro hb
              exact absurd hb hbr
            · intro _
              rw [heq]
              rfl
          case h_2 => cases h
        · case isFalse hcl =>
          split at h
          · case isTrue hdot =>
            cases h
            intro p hp1 hp2 hp3
            have hp : p = cursor := by omega
            subst hp
            exact ⟨fun hb => absurd hb hbr, fun hb => absurd hb hcl⟩
          · case isFalse hdot =>
            split at h
            · case isTrue hcomma =>
              cases h
              intro p hp1 hp2 hp3
              have hp : p = cursor := by omega
              subst hp
              exact ⟨fun hb => absurd hb hbr, fun hb => absurd hb hcl⟩
            · case isFalse hcomma =>
              cases h
              intro p hp1 hp2 hp3
              have hp : p = cursor := by omega
              subst hp
              exact ⟨fun hb => absurd hb hbr, fun hb => absurd hb hcl⟩

/-- A successful `compile` run scanned every bracket successfully. -/
theorem compile_loop_scans (s : List Char) :
    ∀ fuel cursor out, s.length ≤ cursor + fuel →
      compile_loop s fuel cursor = .ok out →
      ∀ p, cursor ≤ p → p < s.length →
        (s.getD p ' ' = '[' → (clookahead s p).isSome) ∧
        (s.getD p ' ' = ']' → (clookbehind s p).isSome) := by
  intro fuel
  induction fuel with
  | zero =>
    intro cursor out hn hok p hp1 hp2
    exact absurd hp2 (by omega)
  | succ fuel ih =>
    intro cursor out hn hok p hp1 hp2
    by_cases hcur : cursor < s.length
    · unfold compile_loop at hok
      rw [if_pos hcur] at hok
      split at hok
      next => cases hok
      next g c' hpi =>
        have hprog := produce_instruction_progress s cursor g c' hpi
        split at hok
        next => cases hok
        next rest hrest =>
          rcases Nat.lt_or_ge p c' with hpc | hpc
          · exact produce_instruction_scan s cursor g c' hpi p hp1 hpc hp2
          · exact ih c' rest (by omega) hrest p hpc hp2
    · exact absurd hp2 (by omega)

/-- A source that compiles without error is balanced: the inline bracket
scans reject exactly what makes a program malformed (and more, see the
lookbehind defect). -/
theorem compile_loop_ok_balanced (s : List Char) (out : List Asm)
    (hok : compile_loop s s.length 0 = .ok out) : Balanced s := by
  have hscan := compile_loop_scans s s.length 0 out (by omega) hok
  have hpart1 : ∀ k, 0 ≤ bal s k := by
    by_contra hc
    push_neg at hc
    obtain ⟨k0, hk0⟩ := hc
    obtain ⟨j, hj1, hj2, hj3, _, hj5⟩ := first_neg_crossing s ⟨k0, by omega⟩
    have hlb := (hscan j (by omega) hj1).2 hj2
    rw [clookbehind_none s j (fun m hm => hj5 m hm) hj3] at hlb
    simp at hlb
  constructor
  · intro k _
    exact hpart1 k
  · by_contra hne
    obtain ⟨i, hi1, hi2, hi3⟩ := unclosed_open s hpart1 hne
    have hla := (hscan i (by omega) hi1).1 hi2
    rw [clookahead_eq_tla, tla_eq_none s i hi3] at hla
    simp at hla

theorem compile_ok_balanced (raw : List Char) (size : Nat) (out : List Asm)
    (h : compile raw size = .ok out) : Balanced (normalize raw) := by
  unfold compile at h
  split at h
  case h_1 => cases h
  case h_2 body hcl => exact compile_loop_ok_balanced (normalize raw) body hcl

/-- Normal termination of the interpreter loop happens only with the
cursor at or past the end of the program. -/
theorem irun_done_cursor (s : List Char) (tags : List (Nat × Nat))
    (cells : Nat) :
    ∀ fuel st st', irun s tags cells fuel st = .done st' →
      s.length ≤ st'.cursor := by
  intro fuel
  induction fuel with
  | zero =>
    intro st st' h
    cases h
  | succ fuel ih =>
    intro st st' h
    unfold irun at h
    by_cases hc : st.cursor < s.length
    · rw [if_pos hc] at h
      split at h
      · cases h
      · exact ih _ _ h
    · rw [if_neg hc] at h
      injection h with h
      subst h
      omega

/-- The only pointer comparison a shift group ever emits is against the
sentinel -1. -/
theorem shiftGroup_cmp (q v : Int) (h : Asm.cmpPointer v ∈ shiftGroup q) :
    v = -1 := by
  unfold shiftGroup at h
  split at h
  · simp at h
    exact h
  · split at h
    · simp at h
      exact h
    · simp at h

/-- Mutation groups contain no pointer comparison at all. -/
theorem mutGroup_cmp (q v : Int) : Asm.cmpPointer v ∉ mutGroup q := by
  unfold mutGroup
  split
  · simp
  · split
    · simp
    · simp

/-- Every pointer comparison emitted by one instruction-producing step is
against -1. -/
theorem produce_instruction_cmp (s : List Char) (cursor : Nat)
    (g : List Asm) (c' : Nat)
    (h : produce_instruction s cursor = .ok (g, c')) :
    ∀ v : Int, Asm.cmpPointer v ∈ g → v = -1 := by
  intro v hv
  unfold produce_instruction at h
  split at h
  case h_1 g0 c0 heq =>
    cases h
    unfold produce_shift at heq
    split at heq
    case isTrue hcons =>
      simp only [Option.some.injEq, Prod.mk.injEq] at heq
      rw [← heq.1] at hv
      exact shiftGroup_cmp _ v hv
    case isFalse => exact absurd heq (by simp)
  case h_2 =>
    split at h
    case h_1 g0 c0 heq =>
      cases h
      unfold produce_mutate at heq
      split at heq
      case isTrue hcons =>
        simp only [Option.some.injEq, Prod.mk.injEq] at heq
        rw [← heq.1] at hv
        exact absurd hv (mutGroup_cmp _ v)
      case isFalse => exact absurd heq (by simp)
    case h_2 =>
      split at h
      · split at h
        · cases h
          simp at hv
        · cases h
      · split at h
        · split at h
          · cases h
            simp at hv
          · cases h
        · split at h
          · cases h
            simp at hv
          · split at h
            · cases h
              simp at hv
            · cases h
              simp at hv

/-- Every pointer comparison in the body produced by the compile loop is
against -1. -/
theorem compile_loop_cmp (s : List Char) :
    ∀ fuel cursor out, compile_loop s fuel cursor = .ok out →
      ∀ v : Int, Asm.cmpPointer v ∈ out → v = -1 := by
  intro fuel
  induction fuel with
  | zero =>
    intro cursor out h v hv
    injection h with h
    subst h
    simp at hv
  | succ fuel ih =>
    intro cursor out h v hv
    unfold compile_loop at h
    by_cases hcur : cursor < s.length
    · rw [if_pos hcur] at h
      split at h
      next => cases h
      next g c' hpi =>
        split at h
        next => cases h
        next rest hrest =>
          cases h
          rcases List.mem_append.mp hv with hg | hr
          · exact produce_instruction_cmp s cursor g c' hpi v hg
          · exact ih c' rest hrest v hr
    · rw [if_neg hcur] at h
      injection h with h
      subst h
      simp at hv

/-- C9: the Normalizer is a total pure function on all source text whose
output is the maximal subsequence of the input consisting only of the
eight recognized symbols in original order, it is idempotent, and the
compiler's normalizer and the interpreter's normalizer compute the same
function. -/
theorem C9_normalizer :
    ∀ s : List Char,
      clean_source (clean_source s) = clean_source s ∧
      normalize s = clean_source s ∧
      (clean_source s).Sublist s ∧
      (∀ c ∈ clean_source s, c ∈ VALID_TOKENS) ∧
      ∀ t : List Char, t.Sublist s → (∀ c ∈ t, c ∈ VALID_TOKENS) →
        t.Sublist (clean_source s) := by
  intro s
  refine ⟨?_, rfl, ?_, ?_, ?_⟩
  · apply List.filter_eq_self.mpr
    intro a ha
    exact (List.mem_filter.mp ha).2
  · exact List.filter_sublist s
  · intro c hc
    have := (List.mem_filter.mp hc).2
    simpa using this
  · intro t hts hval
    have ht : clean_source t = t := by
      unfold clean_source
      apply List.filter_eq_self.mpr
      intro a ha
      simpa using hval a ha
    have hf : (clean_source t).Sublist (clean_source s) := by
      unfold clean_source
      exact List.Sublist.filter _ hts
    rw [ht] at hf
    exact hf

theorem C9_normalizer_witness :
    clean_source (clean_source [' ', '+', 'x', '[']) =
      clean_source [' ', '+', 'x', '['] ∧
    List.Sublist ['+'] (clean_source [' ', '+', 'x', '[']) := by
  have h := C9_normalizer [' ', '+', 'x', '[']
  exact ⟨h.1, h.2.2.2.2 ['+'] (by decide) (by decide)⟩

/-- C1: on the well-formed program consisting of one empty loop, the
interpreter's resolver maps the loop-end at index 1 to the loop-start at
index 0 and interpretation succeeds, while the compiler's lookbehind scan
(whose loop guard never lets it examine index 0) raises and compilation
fails.  This refutes the claim that both backends' bracket scans agree and
that neither rejects a program the other accepts; the code's backward
scan, not the claim, is at fault. -/
theorem C1_lookbehind_bug :
    Balanced ['[', ']'] ∧
    construct_tags ['[', ']'] = .ok [(1, 0), (0, 1)] ∧
    dlookup [(1, 0), (0, 1)] 1 = some 0 ∧
    tag_lookahead ['[', ']'] 0 = some 1 ∧
    clookahead ['[', ']'] 0 = some 1 ∧
    clookbehind ['[', ']'] 1 = none ∧
    compile ['[', ']'] 30000 = .error () ∧
    interpret ['[', ']'] 1 3 [] [] =
      .done { tape := [0], pointer := 0, cursor := 2, iobuf := [], stdin := [],
              output := [] } := by
  exact ⟨by decide, rfl, by decide, by decide, by decide, by decide,
    rfl, by decide⟩

/-- C6: the pre-read loop hands the replay buffer the sentinel terminator
itself: after reading stdin text made of the program, the sentinel and one
trailing byte, the rebuffered text begins with the sentinel, and the first
input token of the program then pops a buffered one-character string whose
assignment into the bytearray raises TypeError, instead of storing the byte
after the sentinel.  The claim describes the intended behavior; the code
both includes the terminator in the replay and replays strings where
integers are required. -/
theorem C6_replay_bug :
    read_until_char '!' [',', '.', '!', 'A'] 5 = some ([',', '.'], ['!', 'A']) ∧
    io_getchar ['!', 'A'] [] = (.bufChar '!', ['A'], []) ∧
    interpret [',', '.'] 1 5 ['!', 'A'] [] =
      .failed IErr.typeMismatch
        ({ tape := [0], pointer := 0, cursor := 0, iobuf := ['A'],
           stdin := [], output := [] } : IState) := by
  exact ⟨by decide, by decide, by decide⟩

/-- C8 (amended): in the interpreter's execution loop, a loop-start whose
cell is zero and a loop-end whose cell is nonzero set the Cursor to the
matched position and the unconditional end-of-iteration increment then
lands it one past the match (which is behaviorally equivalent to stopping
on the match, since the skipped bracket would fall through); on every
other token the Cursor advances by 1; execution terminates normally
exactly when the Cursor reaches the end of the Program. -/
theorem C8_cursor_semantics :
    ∀ (s : List Char) (tags : List (Nat × Nat)) (cells : Nat) (st : IState)
      (j : Nat),
      (s.getD st.cursor ' ' = '[' → st.tape.getD st.pointer.toNat 0 = 0 →
        dlookup tags st.cursor = some j →
        istep s tags cells st = .ok { st with cursor := j + 1 }) ∧
      (s.getD st.cursor ' ' = ']' → st.tape.getD st.pointer.toNat 0 ≠ 0 →
        dlookup tags st.cursor = some j →
        istep s tags cells st = .ok { st with cursor := j + 1 }) ∧
      (s.getD st.cursor ' ' = '[' → st.tape.getD st.pointer.toNat 0 ≠ 0 →
        istep s tags cells st = .ok { st with cursor := st.cursor + 1 }) ∧
      (s.getD st.cursor ' ' = ']' → st.tape.getD st.pointer.toNat 0 = 0 →
        istep s tags cells st = .ok { st with cursor := st.cursor + 1 }) ∧
      (∀ st', istep s tags cells st = .ok st' →
        st'.cursor = st.cursor + 1 ∨
        ∃ j0, dlookup tags st.cursor = some j0 ∧ st'.cursor = j0 + 1 ∧
          (s.getD st.cursor ' ' = '[' ∨ s.getD st.cursor ' ' = ']')) ∧
      (s.length ≤ st.cursor → ∀ fuel, irun s tags cells (fuel + 1) st = .done st) ∧
      (∀ fuel st', irun s tags cells fuel st = .done st' →
        s.length ≤ st'.cursor) := by
  intro s tags cells st j
  refine ⟨?_, ?_, ?_, ?_, ?_, ?_, ?_⟩
  · intro hc hcell hj
    unfold istep
    rw [if_neg (by rw [hc]; decide), if_neg (by rw [hc]; decide),
      if_neg (by rw [hc]; decide), if_neg (by rw [hc]; decide),
      if_pos hc, if_pos hcell, hj]
  · intro hc hcell hj
    unfold istep
    rw [if_neg (by rw [hc]; decide), if_neg (by rw [hc]; decide),
      if_neg (by rw [hc]; decide), if_neg (by rw [hc]; decide),
      if_neg (by rw [hc]; decide), if_pos hc, if_neg hcell, hj]
  · intro hc hcell
    unfold istep
    rw [if_neg (by rw [hc]; decide), if_neg (by rw [hc]; decide),
      if_neg (by rw [hc]; decide), if_neg (by rw [hc]; decide),
      if_pos hc, if_neg hcell]
  · intro hc hcell
    unfold istep
    rw [if_neg (by rw [hc]; decide), if_neg (by rw [hc]; decide),
      if_neg (by rw [hc]; decide), if_neg (by rw [hc]; decide),
      if_neg (by rw [hc]; decide), if_pos hc, if_pos hcell]
  · intro st' h
    unfold istep at h
    by_cases h1 : s.getD st.cursor ' ' = '>'
    · rw [if_pos h1] at h
      by_cases h2 : st.pointer + 1 = (cells : Int)
      · rw [if_pos h2] at h
        cases h
      · rw [if_neg h2] at h
        cases h
        exact Or.inl rfl
    · rw [if_neg h1] at h
      by_cases h2 : s.getD st.cursor ' ' = '<'
      · rw [if_pos h2] at h
        by_cases h3 : st.pointer - 1 < 0
        · rw [if_pos h3] at h
          cases h
        · rw [if_neg h3] at h
          cases h
          exact Or.inl rfl
      · rw [if_neg h2] at h
        by_cases h3 : s.getD st.cursor ' ' = '+'
        · rw [if_pos h3] at h
          cases h
          exact Or.inl rfl
        · rw [if_neg h3] at h
          by_cases h4 : s.getD st.cursor ' ' = '-'
          · rw [if_pos h4] at h
            cases h
            exact Or.inl rfl
          · rw [if_neg h4] at h
            by_cases h5 : s.getD st.cursor ' ' = '['
            · rw [if_pos h5] at h
              by_cases h6 : st.tape.getD st.pointer.toNat 0 = 0
              · rw [if_pos h6] at h
                cases hdl : dlookup tags st.cursor with
                | none =>
                  rw [hdl] at h
                  cases h
                | some j0 =>
                  rw [hdl] at h
                  cases h
                  exact Or.inr ⟨j0, rfl, rfl, Or.inl h5⟩
              · rw [if_neg h6] at h
                cases h
                exact Or.inl rfl
            · rw [if_neg h5] at h
              by_cases h7 : s.getD st.cursor ' ' = ']'
              · rw [if_pos h7] at h
                by_cases h6 : st.tape.getD st.pointer.toNat 0 = 0
                · rw [if_pos h6] at h
                  cases h
                  exact Or.inl rfl
                · rw [if_neg h6] at h
                  cases hdl : dlookup tags st.cursor with
                  | none =>
                    rw [hdl] at h
                    cases h
                  | some j0 =>
                    rw [hdl] at h
                    cases h
                    exact Or.inr ⟨j0, rfl, rfl, Or.inr h7⟩
              · rw [if_neg h7] at h
                by_cases h8 : s.getD st.cursor ' ' = '.'
                · rw [if_pos h8] at h
                  cases h
                  exact Or.inl rfl
                · rw [if_neg h8] at h
                  by_cases h9 : s.getD st.cursor ' ' = ','
                  · rw [if_pos h9] at h
                    rcases hio : io_getchar st.iobuf st.stdin with ⟨g, buf', in'⟩
                    rw [hio] at h
                    cases g with
                    | bufChar c => cases h
                    | byte b =>
                      cases h
                      exact Or.inl rfl
                    | errEof => cases h
                    | errMultibyte => cases h
                  · rw [if_neg h9] at h
                    cases h
                    exact Or.inl rfl
  · intro hlen fuel
    unfold irun
    rw [if_neg (by omega)]
  · exact fun fuel st' => irun_done_cursor s tags cells fuel st st'

/-- C8 counterexample: on the program consisting of one empty loop with a
zero cell, the claim as stated says the step from the loop-start leaves
the Cursor on the matched loop-end index 1 (a jump suppresses the
advance); the interpreter's loop body actually applies its unconditional
`cursor += 1` after the jump as well, leaving the Cursor at 2. -/
theorem C8_cursor_counterexample :
    dlookup [(1, 0), (0, 1)] 0 = some 1 ∧
    istep ['[', ']'] [(1, 0), (0, 1)] 1 (initState 1 [] []) =
      .ok { initState 1 [] [] with cursor := 2 } ∧
    ¬ istep ['[', ']'] [(1, 0), (0, 1)] 1 (initState 1 [] []) =
        .ok { initState 1 [] [] with cursor := 1 } := by
  refine ⟨rfl, rfl, ?_⟩
  intro h
  injection h with h
  exact absurd h (by decide)

theorem C8_cursor_semantics_witness :
    istep ['[', ']'] [(1, 0), (0, 1)] 1 (initState 1 [] []) =
      .ok { initState 1 [] [] with cursor := 1 + 1 } := by
  have h := C8_cursor_semantics ['[', ']'] [(1, 0), (0, 1)] 1
    (initState 1 [] []) 1
  exact h.1 (by decide) (by decide) (by decide)

/-- C5: executing a move-right token increments the Pointer and fails
with PointerOutOfRange reporting the tape length exactly when the new
Pointer equals the tape length; executing a move-left token decrements the
Pointer and fails with PointerOutOfRange reporting -1 exactly when the new
Pointer is below 0; on such a failure the loop halts at once, the error
state keeping the tape, the cursor, the buffers and the output of the
state before the move. -/
theorem C5_move_bounds :
    ∀ (s : List Char) (tags : List (Nat × Nat)) (cells : Nat) (st : IState),
      st.cursor < s.length →
      ((s.getD st.cursor ' ' = '>' →
        (st.pointer + 1 = (cells : Int) →
          istep s tags cells st =
            .error (.ptrOutOfRange (cells : Int),
              { st with pointer := st.pointer + 1 }) ∧
          ∀ fuel, irun s tags cells (fuel + 1) st =
            .failed (.ptrOutOfRange (cells : Int))
              { st with pointer := st.pointer + 1 }) ∧
        (st.pointer + 1 ≠ (cells : Int) →
          istep s tags cells st =
            .ok { st with pointer := st.pointer + 1, cursor := st.cursor + 1 })) ∧
      (s.getD st.cursor ' ' = '<' →
        (st.pointer - 1 < 0 →
          istep s tags cells st =
            .error (.ptrOutOfRange (-1), { st with pointer := st.pointer - 1 }) ∧
          ∀ fuel, irun s tags cells (fuel + 1) st =
            .failed (.ptrOutOfRange (-1)) { st with pointer := st.pointer - 1 }) ∧
        (¬ st.pointer - 1 < 0 →
          istep s tags cells st =
            .ok { st with pointer := st.pointer - 1, cursor := st.cursor + 1 }))) := by
  intro s tags cells st hcur
  have hstepgt : s.getD st.cursor ' ' = '>' → st.pointer + 1 = (cells : Int) →
      istep s tags cells st =
        .error (.ptrOutOfRange (cells : Int), { st with pointer := st.pointer + 1 }) := by
    intro hc hp
    unfold istep
    rw [if_pos hc, if_pos hp]
  have hsteplt : s.getD st.cursor ' ' = '<' → st.pointer - 1 < 0 →
      istep s tags cells st =
        .error (.ptrOutOfRange (-1), { st with pointer := st.pointer - 1 }) := by
    intro hc hp
    unfold istep
    rw [if_neg (by rw [hc]; decide), if_pos hc, if_pos hp]
  refine ⟨fun hc => ⟨fun hp => ⟨hstepgt hc hp, fun fuel => ?_⟩, fun hp => ?_⟩,
    fun hc => ⟨fun hp => ⟨hsteplt hc hp, fun fuel => ?_⟩, fun hp => ?_⟩⟩
  · unfold irun
    rw [if_pos hcur, hstepgt hc hp]
  · unfold istep
    rw [if_pos hc, if_neg hp]
  · unfold irun
    rw [if_pos hcur, hsteplt hc hp]
  · unfold istep
    rw [if_neg (by rw [hc]; decide), if_pos hc, if_neg hp]

theorem C5_move_bounds_witness :
    istep ['>'] [] 1 (initState 1 [] []) =
      .error (.ptrOutOfRange ((1 : Nat) : Int),
        { initState 1 [] [] with pointer := (initState 1 [] []).pointer + 1 }) ∧
    irun ['>'] [] 1 (0 + 1) (initState 1 [] []) =
      .failed (.ptrOutOfRange ((1 : Nat) : Int))
        { initState 1 [] [] with pointer := (initState 1 [] []).pointer + 1 } := by
  have h := C5_move_bounds ['>'] [] 1 (initState 1 [] []) (by decide)
  have h1 := (h.1 (by decide)).1 (by decide)
  exact ⟨h1.1, h1.2 0⟩

/-- C10: in every state satisfying the pointer invariant, the cell under
the pointer exists, every successful step preserves the invariant, and a
failing step leaves the tape and the output as they were (the pointer
leaves the valid range only inside a failing move step, which raises
before any tape access). -/
theorem C10_pointer_invariant :
    ∀ (s : List Char) (tags : List (Nat × Nat)) (cells : Nat) (st : IState),
      PtrInv cells st →
      (st.tape[st.pointer.toNat]?).isSome ∧
      (∀ st', istep s tags cells st = .ok st' → PtrInv cells st') ∧
      (∀ e st', istep s tags cells st = .error (e, st') →
        st'.tape = st.tape ∧ st'.output = st.output ∧ st'.cursor = st.cursor) := by
  intro s tags cells st hInv
  obtain ⟨hp1, hp2, hp3⟩ := hInv
  have hidx : st.pointer.toNat < st.tape.length := by omega
  refine ⟨?_, ?_, ?_⟩
  · simp [List.getElem?_eq_getElem hidx]
  · intro st' h
    unfold istep at h
    by_cases h1 : s.getD st.cursor ' ' = '>'
    · rw [if_pos h1] at h
      by_cases h2 : st.pointer + 1 = (cells : Int)
      · rw [if_pos h2] at h
        cases h
      · rw [if_neg h2] at h
        cases h
        exact ⟨by simp; omega, by simp; omega, by simpa using hp3⟩
    · rw [if_neg h1] at h
      by_cases h2 : s.getD st.cursor ' ' = '<'
      · rw [if_pos h2] at h
        by_cases h3 : st.pointer - 1 < 0
        · rw [if_pos h3] at h
          cases h
        · rw [if_neg h3] at h
          cases h
          exact ⟨by simp; omega, by simp; omega, by simpa using hp3⟩
      · rw [if_neg h2] at h
        by_cases h3 : s.getD st.cursor ' ' = '+'
        · rw [if_pos h3] at h
          cases h
          exact ⟨hp1, hp2, by simpa using hp3⟩
        · rw [if_neg h3] at h
          by_cases h4 : s.getD st.cursor ' ' = '-'
          · rw [if_pos h4] at h
            cases h
            exact ⟨hp1, hp2, by simpa using hp3⟩
          · rw [if_neg h4] at h
            by_cases h5 : s.getD st.cursor ' ' = '['
            · rw [if_pos h5] at h
              by_cases h6 : st.tape.getD st.pointer.toNat 0 = 0
              · rw [if_pos h6] at h
                cases hdl : dlookup tags st.cursor with
                | none =>
                  rw [hdl] at h
                  cases h
                | some j0 =>
                  rw [hdl] at h
                  cases h
                  exact ⟨hp1, hp2, hp3⟩
              · rw [if_neg h6] at h
                cases h
                exact ⟨hp1, hp2, hp3⟩
            · rw [if_neg h5] at h
              by_cases h7 : s.getD st.cursor ' ' = ']'
              · rw [if_pos h7] at h
                by_cases h6 : st.tape.getD st.pointer.toNat 0 = 0
                · rw [if_pos h6] at h
                  cases h
                  exact ⟨hp1, hp2, hp3⟩
                · rw [if_neg h6] at h
                  cases hdl : dlookup tags st.cursor with
                  | none =>
                    rw [hdl] at h
                    cases h
                  | some j0 =>
                    rw [hdl] at h
                    cases h
                    exact ⟨hp1, hp2, hp3⟩
              · rw [if_neg h7] at h
                by_cases h8 : s.getD st.cursor ' ' = '.'
                · rw [if_pos h8] at h
                  cases h
                  exact ⟨hp1, hp2, hp3⟩
                · rw [if_neg h8] at h
                  by_cases h9 : s.getD st.cursor ' ' = ','
                  · rw [if_pos h9] at h
                    rcases hio : io_getchar st.iobuf st.stdin with ⟨g, buf', in'⟩
                    rw [hio] at h
                    cases g with
                    | bufChar c => cases h
                    | byte b =>
                      cases h
                      exact ⟨hp1, hp2, by simpa using hp3⟩
                    | errEof => cases h
                    | errMultibyte => cases h
                  · rw [if_neg h9] at h
                    cases h
                    exact ⟨hp1, hp2, hp3⟩
  · intro e st' h
    unfold istep at h
    by_cases h1 : s.getD st.cursor ' ' = '>'
    · rw [if_pos h1] at h
      by_cases h2 : st.pointer + 1 = (cells : Int)
      · rw [if_pos h2] at h
        cases h
        exact ⟨rfl, rfl, rfl⟩
      · rw [if_neg h2] at h
        cases h
    · rw [if_neg h1] at h
      by_cases h2 : s.getD st.cursor ' ' = '<'
      · rw [if_pos h2] at h
        by_cases h3 : st.pointer - 1 < 0
        · rw [if_pos h3] at h
          cases h
          exact ⟨rfl, rfl, rfl⟩
        · rw [if_neg h3] at h
          cases h
      · rw [if_neg h2] at h
        by_cases h3 : s.getD st.cursor ' ' = '+'
        · rw [if_pos h3] at h
          cases h
        · rw [if_neg h3] at h
          by_cases h4 : s.getD st.cursor ' ' = '-'
          · rw [if_pos h4] at h
            cases h
          · rw [if_neg h4] at h
            by_cases h5 : s.getD st.cursor ' ' = '['
            · rw [if_pos h5] at h
              by_cases h6 : st.tape.getD st.pointer.toNat 0 = 0
              · rw [if_pos h6] at h
                cases hdl : dlookup tags st.cursor with
                | none =>
                  rw [hdl] at h
                  cases h
                  exact ⟨rfl, rfl, rfl⟩
                | some j0 =>
                  rw [hdl] at h
                  cases h
              · rw [if_neg h6] at h
                cases h
            · rw [if_neg h5] at h
              by_cases h7 : s.getD st.cursor ' ' = ']'
              · rw [if_pos h7] at h
                by_cases h6 : st.tape.getD st.pointer.toNat 0 = 0
                · rw [if_pos h6] at h
                  cases h
                · rw [if_neg h6] at h
                  cases hdl : dlookup tags st.cursor with
                  | none =>
                    rw [hdl] at h
                    cases h
                    exact ⟨rfl, rfl, rfl⟩
                  | some j0 =>
                    rw [hdl] at h
                    cases h
              · rw [if_neg h7] at h
                by_cases h8 : s.getD st.cursor ' ' = '.'
                · rw [if_pos h8] at h
                  cases h
                · rw [if_neg h8] at h
                  by_cases h9 : s.getD st.cursor ' ' = ','
                  · rw [if_pos h9] at h
                    rcases hio : io_getchar st.iobuf st.stdin with ⟨g, buf', in'⟩
                    rw [hio] at h
                    cases g with
                    | bufChar c =>
                      cases h
                      exact ⟨rfl, rfl, rfl⟩
                    | byte b => cases h
                    | errEof =>
                      cases h
                      exact ⟨rfl, rfl, rfl⟩
                    | errMultibyte =>
                      cases h
                      exact ⟨rfl, rfl, rfl⟩
                  · rw [if_neg h9] at h
                    cases h

theorem C10_pointer_invariant_witness :
    PtrInv 1 (initState 1 [] []) ∧
    ((initState 1 [] []).tape[(initState 1 [] []).pointer.toNat]?).isSome := by
  refine ⟨by decide, ?_⟩
  exact (C10_pointer_invariant ['+'] [] 1 (initState 1 [] []) (by decide)).1

/-- C2: at every cursor sitting on a move (resp. mutation) token the
run-length pass consumes the maximal contiguous run of move (resp.
mutation) tokens, returns the first position past it, emits the single
group determined by the net signed quantity, and applying that net
quantity (to the pointer, resp. to the current cell modulo 256) gives
exactly the state that executing the consumed run token-by-token gives;
a run whose net quantity is zero emits nothing at all. -/
theorem C2_run_length_fold :
    ∀ (s : List Char) (cursor : Nat), cursor < s.length →
      ((s.getD cursor ' ' = '<' ∨ s.getD cursor ' ' = '>') →
        ∃ g c' q, produce_shift s cursor = some (g, c') ∧ g = shiftGroup q ∧
          cursor < c' ∧ c' ≤ s.length ∧
          (∀ k, cursor ≤ k → k < c' →
            (s.getD k ' ' = '<' ∨ s.getD k ' ' = '>')) ∧
          (c' < s.length → ¬(s.getD c' ' ' = '<' ∨ s.getD c' ' ' = '>')) ∧
          (∀ (p : Int) (t : List Nat),
            execRun (slice s cursor c') (p, t) = (p + q, t)) ∧
          (q = 0 → g = [])) ∧
      ((s.getD cursor ' ' = '+' ∨ s.getD cursor ' ' = '-') →
        ∃ g c' q, produce_mutate s cursor = some (g, c') ∧ g = mutGroup q ∧
          cursor < c' ∧ c' ≤ s.length ∧
          (∀ k, cursor ≤ k → k < c' →
            (s.getD k ' ' = '+' ∨ s.getD k ' ' = '-')) ∧
          (c' < s.length → ¬(s.getD c' ' ' = '+' ∨ s.getD c' ' ' = '-')) ∧
          (∀ (p : Int) (t : List Nat), p.toNat < t.length →
            t.getD p.toNat 0 < 256 →
            execRun (slice s cursor c') (p, t) =
              (p, t.set p.toNat
                ((((t.getD p.toNat 0 : Int) + q) % 256).toNat))) ∧
          (q = 0 → g = [])) := by
  intro s cursor hcur
  constructor
  · intro hc
    rcases hsl : shiftLoop s (s.length - cursor) cursor 0 0 with ⟨c', cons', q'⟩
    obtain ⟨hr1, hr2, hr3, hr4, hr5, hr6⟩ :=
      shiftLoop_run s (s.length - cursor) cursor (by omega) 0 0 c' cons' q' hsl
    have hcgt : cursor < c' := by
      rcases Nat.eq_or_lt_of_le hr1 with h | h
      · rw [← h] at hr5
        exact absurd hc (hr5 hcur)
      · exact h
    have hprog := shiftLoop_progress s (s.length - cursor) cursor 0 0
    rw [hsl] at hprog
    have hpos : 0 < cons' := by
      have := hprog.1
      simp at this
      omega
    have hps : produce_shift s cursor = some (shiftGroup q', c') := by
      unfold produce_shift
      rw [hsl]
      exact if_pos hpos
    refine ⟨shiftGroup q', c', q', hps, rfl, hcgt, hr3 hcur, hr4, hr5,
      fun p t => by simpa using hr6 p t, fun hq => by rw [hq]; rfl⟩
  · intro hc
    rcases hsl : mutLoop s (s.length - cursor) cursor 0 0 with ⟨c', cons', q'⟩
    obtain ⟨hr1, hr2, hr3, hr4, hr5, hr6⟩ :=
      mutLoop_run s (s.length - cursor) cursor (by omega) 0 0 c' cons' q' hsl
    have hcgt : cursor < c' := by
      rcases Nat.eq_or_lt_of_le hr1 with h | h
      · rw [← h] at hr5
        exact absurd hc (hr5 hcur)
      · exact h
    have hprog := mutLoop_progress s (s.length - cursor) cursor 0 0
    rw [hsl] at hprog
    have hpos : 0 < cons' := by
      have := hprog.1
      simp at this
      omega
    have hps : produce_mutate s cursor = some (mutGroup q', c') := by
      unfold produce_mutate
      rw [hsl]
      exact if_pos hpos
    refine ⟨mutGroup q', c', q', hps, rfl, hcgt, hr3 hcur, hr4, hr5,
      fun p t h1 h2 => by simpa using hr6 p t h1 h2, fun hq => by rw [hq]; rfl⟩

theorem C2_run_length_fold_witness :
    (∃ g c' q, produce_shift ['>', '>', '<'] 0 = some (g, c') ∧
      g = shiftGroup q ∧
      execRun (slice ['>', '>', '<'] 0 c') (0, [0]) = (0 + q, [0])) ∧
    (∃ g c' q, produce_mutate ['+', '+'] 0 = some (g, c') ∧
      g = mutGroup q ∧ (q = 0 → g = [])) := by
  constructor
  · obtain ⟨g, c', q, h1, h2, _, _, _, _, h6, _⟩ :=
      (C2_run_length_fold ['>', '>', '<'] 0 (by decide)).1 (by decide)
    exact ⟨g, c', q, h1, h2, h6 0 [0]⟩
  · obtain ⟨g, c', q, h1, h2, _, _, _, _, _, h7⟩ :=
      (C2_run_length_fold ['+', '+'] 0 (by decide)).2 (by decide)
    exact ⟨g, c', q, h1, h2, h7⟩

/-- C7: a folded pointer move of positive net quantity q emits exactly the
group add-q / compare-pointer-to-(-1) / jump-to-abort-if-equal, a negative
one the group subtract-(-q) / compare / jump, the group produced by the
shift pass is always the one its net quantity determines, running a
nonzero group adds q to the pointer and aborts exactly on the sentinel
value -1, and no pointer comparison anywhere in a successfully compiled
program checks any value other than -1 (in particular no upper tape bound
is ever checked). -/
theorem C7_shift_emission :
    (∀ q : Int, 0 < q →
      shiftGroup q = [Asm.shiftAdd q, Asm.cmpPointer (-1), Asm.jeAbort]) ∧
    (∀ q : Int, q < 0 →
      shiftGroup q = [Asm.shiftSub (-q), Asm.cmpPointer (-1), Asm.jeAbort]) ∧
    (∀ (s : List Char) (cursor : Nat) (g : List Asm) (c2 : Nat),
      produce_shift s cursor = some (g, c2) →
      g = shiftGroup (shiftLoop s (s.length - cursor) cursor 0 0).2.2) ∧
    (∀ (p q : Int), q ≠ 0 →
      runPtrGroup (shiftGroup q) p =
        if p + q = -1 then .error () else .ok (p + q)) ∧
    (∀ (raw : List Char) (size : Nat) (out : List Asm),
      compile raw size = .ok out →
      ∀ v : Int, Asm.cmpPointer v ∈ out → v = -1) := by
  refine ⟨?_, ?_, ?_, ?_, ?_⟩
  · intro q hq
    unfold shiftGroup
    rw [if_pos hq]
  · intro q hq
    unfold shiftGroup
    rw [if_neg (by omega), if_pos hq]
  · intro s cursor g c2 h
    unfold produce_shift at h
    split at h
    case isTrue hcons =>
      simp only [Option.some.injEq, Prod.mk.injEq] at h
      exact h.1.symm
    case isFalse => cases h
  · intro p q hq
    rcases lt_trichotomy q 0 with hlt | heq | hgt
    · unfold shiftGroup
      rw [if_neg (by omega), if_pos hlt]
      show runPtrGroup [Asm.cmpPointer (-1), Asm.jeAbort] (p - -q) = _
      have hpq : p - -q = p + q := by ring
      rw [hpq]
      show (if p + q = -1 then Except.error () else runPtrGroup [] (p + q)) = _
      rfl
    · exact absurd heq hq
    · unfold shiftGroup
      rw [if_pos hgt]
      show runPtrGroup [Asm.cmpPointer (-1), Asm.jeAbort] (p + q) = _
      show (if p + q = -1 then Except.error () else runPtrGroup [] (p + q)) = _
      rfl
  · intro raw size out h v hv
    unfold compile at h
    split at h
    case h_1 => cases h
    case h_2 body hcl =>
      cases h
      rcases List.mem_cons.mp hv with hh | ht
      · simp at hh
      · rcases List.mem_append.mp ht with hb | hc
        · exact compile_loop_cmp (normalize raw)
            (normalize raw).length 0 body hcl v hb
        · simp at hc

theorem C7_shift_emission_witness :
    shiftGroup (-1) = [Asm.shiftSub 1, Asm.cmpPointer (-1), Asm.jeAbort] ∧
    runPtrGroup (shiftGroup 2) 5 = .ok 7 := by
  constructor
  · have h := C7_shift_emission.2.1 (-1) (by decide)
    simpa using h
  · have h := C7_shift_emission.2.2.2.1 5 2 (by decide)
    rw [h, if_neg (by decide)]
    norm_num

/-- C3: for every source whose normalized form is unbalanced, the
interpreter's bracket resolution fails with a structural error whose index
is a valid position of the normalized program, the interpreter therefore
fails on the untouched initial machine (no cell written, no output
produced), and the compiler rejects the source outright, producing no
assembly at all. -/
theorem C3_malformed_rejected :
    ∀ (raw : List Char), ¬ Balanced (clean_source raw) →
      (∃ i, construct_tags (clean_source raw) = .error i ∧
        i < (clean_source raw).length) ∧
      (∀ cells fuel iobuf stdin, ∃ i,
        interpret raw cells fuel iobuf stdin =
          .failed (.structural i) (initState cells iobuf stdin) ∧
        i < (clean_source raw).length) ∧
      (∀ size, compile raw size = .error ()) := by
  intro raw hbad
  have herr : ∃ i, construct_tags (clean_source raw) = .error i ∧
      i < (clean_source raw).length := by
    cases hct : construct_tags (clean_source raw) with
    | ok m => exact absurd (construct_tags_ok_balanced _ m hct) hbad
    | error i =>
      refine ⟨i, rfl, ?_⟩
      unfold construct_tags at hct
      exact (ct_aux_error_lt (clean_source raw) _ 0 [] i hct).2
  obtain ⟨i, hi1, hi2⟩ := herr
  refine ⟨⟨i, hi1, hi2⟩, ?_, ?_⟩
  · intro cells fuel iobuf stdin
    refine ⟨i, ?_, hi2⟩
    unfold interpret
    rw [hi1]
  · intro size
    cases hcomp : compile raw size with
    | ok out =>
      have hb : Balanced (clean_source raw) :=
        compile_ok_balanced raw size out hcomp
      exact absurd hb hbad
    | error e =>
      cases e
      rfl

theorem C3_malformed_rejected_witness :
    (∃ i, construct_tags (clean_source ['[']) = .error i ∧
      i < (clean_source ['[']).length) ∧
    (∀ size, compile ['['] size = .error ()) := by
  have h := C3_malformed_rejected ['['] (by decide)
  exact ⟨h.1, h.2.2⟩

/-- C4: on every balanced source the bracket resolver succeeds and its map
is symmetric (looking up the match of a match returns the start), its
domain is exactly the bracket positions of the source, every loop-start is
mapped strictly forward, and every loop-end strictly backward. -/
theorem C4_bracket_map :
    ∀ (s : List Char), Balanced s →
      ∃ m, construct_tags s = .ok m ∧
        (∀ i j, dlookup m i = some j → dlookup m j = some i) ∧
        (∀ i, (dlookup m i).isSome ↔
          (i < s.length ∧ (s.getD i ' ' = '[' ∨ s.getD i ' ' = ']'))) ∧
        (∀ i j, dlookup m i = some j → s.getD i ' ' = '[' → i < j) ∧
        (∀ i j, dlookup m i = some j → s.getD i ' ' = ']' → j < i) := by
  intro s hbal
  obtain ⟨m, hok, hsound, hcomp⟩ := construct_tags_of_balanced s hbal
  refine ⟨m, hok, ?_, ?_, ?_, ?_⟩
  · intro i j h
    rcases hsound i j h with ⟨hlt, hco, htla⟩ | ⟨hlt, hco, htla⟩
    · exact (hcomp i j hlt hco htla).2
    · exact (hcomp j i hlt hco htla).1
  · intro i
    constructor
    · intro hs
      obtain ⟨j, hj⟩ := Option.isSome_iff_exists.mp hs
      rcases hsound i j hj with ⟨hlt, hco, htla⟩ | ⟨hlt, hco, htla⟩
      · exact ⟨hlt, Or.inl hco⟩
      · exact ⟨tla_lt_length s j i htla, Or.inr (tla_close_char s j i htla)⟩
    · rintro ⟨hlen, hco | hco⟩
      · obtain ⟨j, hj⟩ := exists_tla_of_open s hbal i hco
        rw [(hcomp i j hlen hco hj).1]
        rfl
      · obtain ⟨b, hb1, hb2, hb3⟩ := exists_open_for_close s hbal i hco
        rw [(hcomp b i (by omega) hb2 hb3).2]
        rfl
  · intro i j h hco
    rcases hsound i j h with ⟨_, _, htla⟩ | ⟨_, _, htla⟩
    · exact tla_lt s i j htla
    · have hcl := tla_close_char s j i htla
      rw [hco] at hcl
      exact absurd hcl (by decide)
  · intro i j h hco
    rcases hsound i j h with ⟨_, hop, _⟩ | ⟨_, _, htla⟩
    · rw [hco] at hop
      exact absurd hop (by decide)
    · exact tla_lt s j i htla

theorem C4_bracket_map_witness :
    ∃ m, construct_tags ['[', ']'] = .ok m ∧
      (∀ i j, dlookup m i = some j → dlookup m j = some i) := by
  obtain ⟨m, hok, hsym, _, _, _⟩ := C4_bracket_map ['[', ']'] (by decide)
  exact ⟨m, hok, hsym⟩

end Bfc
